import Mathlib

/-!
Verification of the Dependency Resolution & Packaging Intelligence subsystem
of pytron-kit against its specification.

The Lean definitions below are a shallow embedding of the Python sources:

* `pytron/pack/graph.py`      → `Edge`, `Node`, `SideEffectGraph`, `GraphBuilder`
                                 (`visitTree`), `DependencyOracle` (`predictAll`)
* `pytron/pack/inference.py`  → `Model` (`SimpleTextClassifier`), `FeatureExtractor`
* `pytron/pack/introspect.py` → `Introspect` namespace
* `pytron/pack/crystal.py`    → `Crystal` namespace (the generated harness's
                                 `dump_manifest`)
* `pytron/pack/pipeline.py`   → `Pipeline` namespace

Python floats (confidence scores, log computations) are embedded as `ℚ`
likelihoods; the log-probability view of a score is recovered through
`Real.log`, and the correspondence is proved (`scoreR_eq_log_scoreQ`).
Python dicts are embedded as association lists or update functions, Python
sets as deduplicating list insertion, and the filesystem / installed-package
metadata consulted by the code as explicit environment arguments.
-/

namespace PytronKit

/-! ## Graph model (`pytron/pack/graph.py`) -/

/-- `Edge` dataclass: directed, typed, confidence-scored edge.
The source's `metadata` dict is never populated by any caller, so it is
omitted here. -/
structure Edge where
  source : String
  target : String
  type : String
  confidence : ℚ
  reason : String
  deriving DecidableEq, Repr

/-- Abstraction of a `pathlib.Path`: the full path string plus its final
component (`Path.name`). -/
structure PathT where
  full : String
  name : String
  deriving DecidableEq, Repr

/-- `Node` dataclass.  `features` and `literals` are Python sets; we keep
them as deduplicated lists (CPython set iteration over an unchanged set is
deterministic, and no claim depends on a particular order). -/
structure Node where
  name : String
  path : Option PathT := none
  type : String := "module"
  features : List String := []
  literals : List String := []
  deriving DecidableEq, Repr

/-- One entry of `SideEffectGraph._uncertainty_zones` (a dict in the
source). -/
structure Zone where
  source : String
  line : ℕ
  code : String
  heuristic : String
  resolved : Bool
  deriving DecidableEq, Repr

/-- `SideEffectGraph`: node map (dict keyed by name, embedded as an
association list in insertion order), edge list, uncertainty-zone list. -/
structure SideEffectGraph where
  nodes : List (String × Node)
  edges : List Edge
  zones : List Zone

/-- `SideEffectGraph.__init__`. -/
def SideEffectGraph.init : SideEffectGraph := ⟨[], [], []⟩

/-- Dict lookup `self.nodes.get(name)`. -/
def SideEffectGraph.getNode (g : SideEffectGraph) (name : String) : Option Node :=
  (g.nodes.find? (fun p => p.1 = name)).map (·.2)

/-- `SideEffectGraph.add_node`. -/
def SideEffectGraph.addNode (g : SideEffectGraph) (name : String)
    (path : Option PathT) : SideEffectGraph :=
  if (g.getNode name).isSome then g
  else { g with nodes := g.nodes ++ [(name, Node.mk name path "module" [] [])] }

/-- The duplicate test of `add_edge`: does some edge with this
(source, target, type) triple already exist? -/
def tripleMem (es : List Edge) (s t ty : String) : Bool :=
  es.any fun e => e.source = s ∧ e.target = t ∧ e.type = ty

/-- `SideEffectGraph.add_edge` restricted to the edge list (the rest of the
graph is untouched by the source method). -/
def addEdgeList (es : List Edge) (e : Edge) : List Edge :=
  if tripleMem es e.source e.target e.type then es else es ++ [e]

/-- `SideEffectGraph.add_edge`. -/
def SideEffectGraph.addEdge (g : SideEffectGraph) (source target type : String)
    (confidence : ℚ) (reason : String) : SideEffectGraph :=
  { g with edges := addEdgeList g.edges ⟨source, target, type, confidence, reason⟩ }

/-- `SideEffectGraph.mark_uncertainty`: appends a zone with
`resolved = False`. -/
def SideEffectGraph.markUncertainty (g : SideEffectGraph) (sourceNode : String)
    (lineNo : ℕ) (codeSnippet heuristic : String) : SideEffectGraph :=
  { g with zones := g.zones ++ [⟨sourceNode, lineNo, codeSnippet, heuristic, false⟩] }

/-- In-place mutation of the node object stored under `name`
(`node.features.add` / `node.literals.add` in the source act on the very
object held by `graph.nodes`). -/
def SideEffectGraph.updateNode (g : SideEffectGraph) (name : String)
    (f : Node → Node) : SideEffectGraph :=
  { g with nodes := g.nodes.map fun p => if p.1 = name then (p.1, f p.2) else p }

/-- Python `set.add` on a set embedded as a deduplicated list. -/
def setAdd (l : List String) (x : String) : List String :=
  if x ∈ l then l else l ++ [x]

/-! ## Graph builder (`GraphBuilder._visit_node`)

The relevant fragment of the Python `ast` node universe.  `ast.walk`
enumerates every node of the tree exactly once (breadth-first); the visitor
body of `_visit_node` treats each node independently of the others, so the
only thing the traversal order can influence is the order of the appended
zones/edges, never their multiset. -/

inductive PyAST where
  /-- `ast.Import` with its alias names. -/
  | importStmt (names : List String) : PyAST
  /-- `ast.ImportFrom` (`module` is `None` for `from . import x`). -/
  | importFrom (module : Option String) : PyAST
  /-- `ast.Constant` holding a string. -/
  | constStr (value : String) : PyAST
  /-- `ast.Call` whose `func` is an `ast.Attribute` with attribute `attr`;
  `children` are the remaining walked descendants of the call. -/
  | callAttr (attr : String) (line : ℕ) (children : List PyAST) : PyAST
  /-- `ast.Call` whose `func` is an `ast.Name` with identifier `id`. -/
  | callName (id : String) (line : ℕ) (children : List PyAST) : PyAST
  /-- Any other syntax node, carrying its children. -/
  | other (children : List PyAST) : PyAST
  deriving Repr

namespace PyAST

def children : PyAST → List PyAST
  | .importStmt _ => []
  | .importFrom _ => []
  | .constStr _ => []
  | .callAttr _ _ cs => cs
  | .callName _ _ cs => cs
  | .other cs => cs

mutual
def size : PyAST → ℕ
  | .importStmt _ => 1
  | .importFrom _ => 1
  | .constStr _ => 1
  | .callAttr _ _ cs => 1 + sizeList cs
  | .callName _ _ cs => 1 + sizeList cs
  | .other cs => 1 + sizeList cs

def sizeList : List PyAST → ℕ
  | [] => 0
  | t :: ts => size t + sizeList ts
end

theorem sizeList_append (a b : List PyAST) :
    sizeList (a ++ b) = sizeList a + sizeList b := by
  induction a with
  | nil => simp [sizeList]
  | cons t ts ih => simp [sizeList, ih]; ring

theorem sizeList_children_lt (t : PyAST) : sizeList t.children < size t := by
  cases t <;> simp [children, size, sizeList]

theorem size_pos (t : PyAST) : 0 < size t := by
  cases t <;> simp [size]

/-- `ast.walk`: breadth-first enumeration of all nodes of the queued trees. -/
def walkBFS : List PyAST → List PyAST
  | [] => []
  | t :: q => t :: walkBFS (q ++ t.children)
termination_by q => sizeList q
decreasing_by
  simp only [sizeList, sizeList_append]
  have h1 := sizeList_children_lt t
  omega

/-- `ast.walk` of a single tree. -/
def walk (t : PyAST) : List PyAST := walkBFS [t]

end PyAST

/-- The visitor body of `GraphBuilder._visit_node`, applied to one walked
syntax node `s` on behalf of the module node named `name`. -/
def visitOne (name : String) (g : SideEffectGraph) (s : PyAST) : SideEffectGraph :=
  match s with
  | .importStmt names =>
      names.foldl (fun g' n => g'.addEdge name n "static" 1 "import_stmt") g
  | .importFrom mod =>
      match mod with
      | some m => g.addEdge name m "static" 1 "from_import_stmt"
      | none => g
  | .constStr v =>
      let txt := v.trim
      if txt.length > 3 ∧ ¬ txt.toList.contains ' ' then
        g.updateNode name (fun n => { n with literals := setAdd n.literals txt })
      else g
  | .callAttr attr line _ =>
      if attr = "import_module" then
        (g.updateNode name (fun n =>
            { n with features := setAdd n.features "calls_import_module" })).markUncertainty
          name line "import_module" "dynamic_import"
      else g
  | .callName id line _ =>
      if id = "__import__" then
        (g.updateNode name (fun n =>
            { n with features := setAdd n.features "calls_dunder_import" })).markUncertainty
          name line "__import__" "dynamic_import"
      else g
  | .other _ => g

/-- `GraphBuilder._visit_node`: the visitor folded over `ast.walk(tree)`. -/
def visitTree (g : SideEffectGraph) (name : String) (tree : PyAST) : SideEffectGraph :=
  (tree.walk).foldl (visitOne name) g

/-- `GraphBuilder._analyze_file`: register the node, then (if the file
parsed — parse failure is soft) run the visitor.  `parsed = none` models a
file whose `ast.parse` raised. -/
def analyzeFile (g : SideEffectGraph) (moduleName : String) (path : PathT)
    (parsed : Option PyAST) : SideEffectGraph :=
  let g1 := g.addNode moduleName (some path)
  match parsed with
  | some t => visitTree g1 moduleName t
  | none => g1

/-! ### Builder lemmas -/

/-- The uncertainty zone (if any) that the visitor records for a walked
syntax node: exactly one per dynamic-import call site. -/
def dynZone (name : String) : PyAST → Option Zone
  | .callAttr attr line _ =>
      if attr = "import_module" then
        some ⟨name, line, "import_module", "dynamic_import", false⟩
      else none
  | .callName id line _ =>
      if id = "__import__" then
        some ⟨name, line, "__import__", "dynamic_import", false⟩
      else none
  | _ => none

theorem addEdge_zones (g : SideEffectGraph) (s t ty : String) (c : ℚ) (r : String) :
    (g.addEdge s t ty c r).zones = g.zones := rfl

theorem visitOne_zones (name : String) (g : SideEffectGraph) (s : PyAST) :
    (visitOne name g s).zones = g.zones ++ (dynZone name s).toList := by
  cases s with
  | importStmt names =>
      have h : ∀ (ns : List String) (g' : SideEffectGraph),
          (ns.foldl (fun gg n => gg.addEdge name n "static" 1 "import_stmt") g').zones
            = g'.zones := by
        intro ns
        induction ns with
        | nil => intro g'; rfl
        | cons n ns ih => intro g'; rw [List.foldl_cons, ih]; rfl
      simp [visitOne, dynZone, h]
  | importFrom mod => cases mod <;> simp [visitOne, dynZone, addEdge_zones]
  | constStr v =>
      show (visitOne name g (.constStr v)).zones = g.zones ++ (dynZone name (.constStr v)).toList
      unfold visitOne dynZone
      simp only [Option.toList, List.append_nil]
      split <;> rfl
  | callAttr attr line cs =>
      by_cases h : attr = "import_module" <;>
        simp [visitOne, dynZone, h, SideEffectGraph.markUncertainty,
          SideEffectGraph.updateNode]
  | callName id line cs =>
      by_cases h : id = "__import__" <;>
        simp [visitOne, dynZone, h, SideEffectGraph.markUncertainty,
          SideEffectGraph.updateNode]
  | other cs => simp [visitOne, dynZone]

theorem mem_addEdgeList (es : List Edge) (e : Edge) :
    ∀ e' ∈ addEdgeList es e, e' ∈ es ∨ e' = e := by
  intro e' h
  unfold addEdgeList at h
  split at h
  · exact Or.inl h
  · rcases List.mem_append.mp h with h1 | h1
    · exact Or.inl h1
    · exact Or.inr (List.mem_singleton.mp h1)

theorem visitOne_edges (name : String) (g : SideEffectGraph) (s : PyAST) :
    ∀ e ∈ (visitOne name g s).edges, e ∈ g.edges ∨ e.type = "static" := by
  cases s with
  | importStmt names =>
      have h : ∀ (ns : List String) (g' : SideEffectGraph),
          ∀ e ∈ (ns.foldl (fun gg n => gg.addEdge name n "static" 1 "import_stmt") g').edges,
            e ∈ g'.edges ∨ e.type = "static" := by
        intro ns
        induction ns with
        | nil => intro g' e he; exact Or.inl he
        | cons n ns ih =>
            intro g' e he
            rw [List.foldl_cons] at he
            rcases ih _ e he with h1 | h1
            · rcases mem_addEdgeList _ _ e h1 with h2 | h2
              · exact Or.inl h2
              · subst h2; exact Or.inr rfl
            · exact Or.inr h1
      exact h names g
  | importFrom mod =>
      cases mod with
      | none => intro e he; exact Or.inl he
      | some m =>
          intro e he
          rcases mem_addEdgeList _ _ e he with h1 | h1
          · exact Or.inl h1
          · subst h1; exact Or.inr rfl
  | constStr v =>
      intro e he
      simp only [visitOne] at he
      split at he <;> exact Or.inl he
  | callAttr attr line cs =>
      intro e he
      simp only [visitOne] at he
      split at he <;> exact Or.inl he
  | callName id line cs =>
      intro e he
      simp only [visitOne] at he
      split at he <;> exact Or.inl he
  | other cs => intro e he; exact Or.inl he

theorem foldVisit_zones (name : String) :
    ∀ (l : List PyAST) (g : SideEffectGraph),
      ((l.foldl (visitOne name) g).zones) = g.zones ++ l.filterMap (dynZone name) := by
  intro l
  induction l with
  | nil => intro g; simp
  | cons s l ih =>
      intro g
      rw [List.foldl_cons, ih, visitOne_zones]
      cases h : dynZone name s <;> simp [h]

theorem foldVisit_edges (name : String) :
    ∀ (l : List PyAST) (g : SideEffectGraph),
      ∀ e ∈ (l.foldl (visitOne name) g).edges, e ∈ g.edges ∨ e.type = "static" := by
  intro l
  induction l with
  | nil => intro g e he; exact Or.inl he
  | cons s l ih =>
      intro g e he
      rw [List.foldl_cons] at he
      rcases ih _ e he with h1 | h1
      · exact visitOne_edges name g s e h1
      · exact Or.inr h1

theorem length_filterMap_eq_countP {α β : Type} (f : α → Option β) (l : List α) :
    (l.filterMap f).length = l.countP (fun a => (f a).isSome) := by
  induction l with
  | nil => rfl
  | cons a l ih =>
      cases h : f a <;>
        simp [List.filterMap_cons, List.countP_cons, h, ih]

theorem dynZone_resolved_false (name : String) (s : PyAST) (z : Zone) :
    dynZone name s = some z → z.resolved = false := by
  intro h
  cases s <;> simp [dynZone] at h <;> rcases h with ⟨h1, h2⟩ <;> subst h2 <;> rfl

theorem addNode_zones (g : SideEffectGraph) (n : String) (p : Option PathT) :
    (g.addNode n p).zones = g.zones := by
  unfold SideEffectGraph.addNode
  split <;> rfl

theorem addNode_edges (g : SideEffectGraph) (n : String) (p : Option PathT) :
    (g.addNode n p).edges = g.edges := by
  unfold SideEffectGraph.addNode
  split <;> rfl

/-- **C3.** For every source file the Graph Builder analyzes, each
dynamic-import call site (`importlib.import_module(...)` or bare
`__import__(...)`) in the file's syntax tree records exactly one
uncertainty zone (one `filterMap` hit per walked call node, so the number
of new zones equals the number of call sites), every newly recorded zone
has `resolved = False` (nothing in the Builder ever sets it to `True`; only
the Oracle does), and the dynamic call itself contributes no edge: every
edge of the analyzed graph either pre-existed or is a `static` import
edge. -/
theorem builder_dynamic_import_zones (g : SideEffectGraph) (moduleName : String)
    (path : PathT) (tree : PyAST) :
    (analyzeFile g moduleName path (some tree)).zones
        = g.zones ++ tree.walk.filterMap (dynZone moduleName)
    ∧ (analyzeFile g moduleName path (some tree)).zones.length
        = g.zones.length + tree.walk.countP (fun s => (dynZone moduleName s).isSome)
    ∧ (∀ z ∈ tree.walk.filterMap (dynZone moduleName), z.resolved = false)
    ∧ (∀ e ∈ (analyzeFile g moduleName path (some tree)).edges,
        e ∈ g.edges ∨ e.type = "static") := by
  have hz : (analyzeFile g moduleName path (some tree)).zones
      = g.zones ++ tree.walk.filterMap (dynZone moduleName) := by
    unfold analyzeFile visitTree
    rw [foldVisit_zones, addNode_zones]
  refine ⟨hz, ?_, ?_, ?_⟩
  · rw [hz, List.length_append, length_filterMap_eq_countP]
  · intro z hz'
    rcases List.mem_filterMap.mp hz' with ⟨s, _, hs⟩
    exact dynZone_resolved_false moduleName s z hs
  · intro e he
    unfold analyzeFile visitTree at he
    have := foldVisit_edges moduleName tree.walk (g.addNode moduleName (some path)) e he
    rw [addNode_edges] at this
    exact this

/-! ## Naive Bayes classifier (`pytron/pack/inference.py`)

`SimpleTextClassifier` keeps four defaultdict count tables.  They are
embedded as total functions (a defaultdict reads as `0` at absent keys),
plus `labels`, the insertion-ordered key list of `class_counts` (the order
in which `predict` iterates the dict). -/

structure Model where
  labels : List String := []
  featureCounts : String → String → ℕ := fun _ _ => 0
  classTokenCounts : String → ℕ := fun _ => 0
  classCounts : String → ℕ := fun _ => 0
  totalExamples : ℕ := 0
  vocab : Finset String := ∅

/-- `SimpleTextClassifier.__init__`. -/
def Model.init : Model := {}

/-- `SimpleTextClassifier.train`: the per-feature loop is folded exactly as
in the source (`feature_counts[label][f] += 1`, `class_token_counts[label]
+= 1`, `vocab.add(f)` for each listed feature, with multiplicity). -/
def Model.train (m : Model) (features : List String) (label : String) : Model :=
  { labels := if label ∈ m.labels then m.labels else m.labels ++ [label]
    classCounts := fun l => if l = label then m.classCounts l + 1 else m.classCounts l
    totalExamples := m.totalExamples + 1
    featureCounts := features.foldl
      (fun fc f => fun l x => if l = label ∧ x = f then fc l x + 1 else fc l x)
      m.featureCounts
    classTokenCounts := features.foldl
      (fun tc _ => fun l => if l = label then tc l + 1 else tc l)
      m.classTokenCounts
    vocab := features.foldl (fun v f => insert f v) m.vocab }

/-- The per-label likelihood that `predict` scores, in exact arithmetic:
`P(label) * Π_f (count(f,label)+1) / (total_tokens(label)+|vocab|)`.
The source computes the logarithm of this value by summing `math.log`s;
`scoreR_eq_log_scoreQ` below proves that `Real.log` of this rational is
exactly that sum, so ordering by `scoreQ` is ordering by the source's log
score. -/
def Model.scoreQ (m : Model) (features : List String) (label : String) : ℚ :=
  ((m.classCounts label : ℚ) / (m.totalExamples : ℚ)) *
    (features.map (fun f =>
      ((m.featureCounts label f : ℚ) + 1) /
        ((m.classTokenCounts label : ℚ) + (m.vocab.card : ℚ)))).prod

/-- `SimpleTextClassifier.predict`: score every label of `class_counts` and
sort in descending order (`sorted(..., reverse=True)`; CPython's sort and
`List.mergeSort` are both stable). -/
def Model.predict (m : Model) (features : List String) : List (String × ℚ) :=
  (m.labels.map (fun l => (l, m.scoreQ features l))).mergeSort
    (fun p q => decide (q.2 ≤ p.2))

/-! ## Feature extractor (`FeatureExtractor.extract`) -/

/-- The suspicion-flag table, in dict insertion order. -/
def suspicionFlags : List (String × List String) :=
  [("has_importlib", ["importlib", "import_module"]),
   ("has_pkgutil", ["pkgutil", "iter_modules"]),
   ("has_exec", ["exec(", "eval("]),
   ("has_sys_path", ["sys.path", ".append"]),
   ("has_backends", ["backends", "plugins", "drivers"]),
   ("has_ctypes", ["ctypes", "CDLL", "find_library"]),
   ("has_dunder_import", ["__import__"]),
   ("has_loader", ["importlib.util", "SourceFileLoader"]),
   ("has_data_access", ["open(", "read_text", "pkgutil.get_data"])]

/-- Does the second list start with the first? -/
def startsWithChars : List Char → List Char → Bool
  | [], _ => true
  | _ :: _, [] => false
  | c :: cs, h :: hs => c = h && startsWithChars cs hs

/-- Does some suffix of the second list start with the first? -/
def infixChars (needle : List Char) : List Char → Bool
  | [] => needle.isEmpty
  | h :: hs => startsWithChars needle (h :: hs) || infixChars needle hs

/-- Python `needle in hay` on strings. -/
def containsSub (hay needle : String) : Bool :=
  infixChars needle.toList hay.toList

/-- A regex `\w` character (ASCII view: the analyzed sources are ASCII). -/
def isWordChar (c : Char) : Bool := c.isAlphanum || c = '_'

/-- Split off the maximal leading run of word characters. -/
def spanWord : List Char → List Char × List Char
  | [] => ([], [])
  | c :: rest =>
      if isWordChar c then
        let p := spanWord rest
        (c :: p.1, p.2)
      else ([], c :: rest)

theorem spanWord_snd_length (cs : List Char) : (spanWord cs).2.length ≤ cs.length := by
  induction cs with
  | nil => simp [spanWord]
  | cons c rest ih =>
      simp only [spanWord]
      split
      · simpa using Nat.le_succ_of_le ih
      · simp

/-- Maximal runs of word characters, in order: the candidate matches of
`\b[a-zA-Z_]\w+\b` are exactly those runs that start with a letter or
underscore and have length at least two. -/
def wordRuns : List Char → List (List Char)
  | [] => []
  | c :: rest =>
      if isWordChar c then
        (c :: (spanWord rest).1) :: wordRuns (spanWord rest).2
      else wordRuns rest
termination_by cs => cs.length
decreasing_by
  · have := spanWord_snd_length hs
    simp only [List.length_cons]
    omega
  · simp

/-- The stopword list. -/
def stops : List String :=
  ["self", "def", "class", "return", "import", "from", "if", "else", "None",
   "True", "False", "try", "except", "in", "is", "not", "and", "or", "for",
   "while", "with", "as", "pass", "continue", "break", "raise"]

/-- `FeatureExtractor.extract`: suspicion flags first, then the filtered
bag of identifier tokens. -/
def extract (sourceCode : String) : List String :=
  let flagFeatures := suspicionFlags.filterMap fun p =>
    if p.2.any (containsSub sourceCode) then some ("FLAG:" ++ p.1) else none
  let toks := (wordRuns sourceCode.toList).filterMap fun r =>
    match r with
    | [] => none
    | c :: rest =>
        if (c.isAlpha || c = '_') ∧ rest ≠ [] then some (String.mk (c :: rest))
        else none
  flagFeatures ++ toks.filterMap fun t =>
    if t.length > 3 ∧ t ∉ stops then some ("TOKEN:" ++ t) else none

/-! ## Dependency Oracle (`DependencyOracle`) -/

/-- One entry of a Knowledge-Base `utilities` list. -/
structure Utility where
  function : String
  arguments : List String
  deriving DecidableEq, Repr

/-- The `signal` record of one Knowledge-Base key.  The JSON nesting
(`kb[root]["signal"]`) and the `isinstance(..., str)` guards of the source
are absorbed into the types. -/
structure Signal where
  hiddenimports : List String := []
  utilities : List Utility := []
  deriving DecidableEq, Repr

/-- The Knowledge Base: a JSON object, i.e. a key-unique association list
from root package name to signal. -/
abbrev KnowledgeBase := List (String × Signal)

def kbLookup (kb : KnowledgeBase) (key : String) : Option Signal :=
  (kb.find? (fun p => p.1 = key)).map (·.2)

/-- The filesystem consulted by `_predict_unseen_module`
(`node.path.exists()` / `node.path.read_text()`): `none` means the path
does not exist or cannot be read. -/
abbrev FileEnv := PathT → Option String

/-- `source_name.split(".")[0]`: the characters before the first dot (the
whole string when it has no dot). -/
def headSegment (s : String) : String :=
  String.mk (s.toList.takeWhile (fun c => c ≠ '.'))

/-- The edges `_apply_known_wisdom` adds, in source order: hidden imports
first (confidence 0.95), then `collect_submodules` utility wildcards
(confidence 0.90). -/
def knownWisdomEdges (sourceName root : String) (sig : Signal) : List Edge :=
  (sig.hiddenimports.map fun hidden =>
    ⟨sourceName, hidden, "predicted", 95/100,
      "oracle_hook_knowledge_base[" ++ root ++ "]"⟩)
  ++ sig.utilities.filterMap fun util =>
      if util.function = "collect_submodules" then
        some ⟨sourceName, (util.arguments.headD root) ++ ".*", "predicted", 90/100,
          "oracle_utility_signal:collect_submodules"⟩
      else none

/-- The edges `_predict_unseen_module` (the Generalist) adds. -/
def unseenEdges (clf : Option Model) (env : FileEnv) (node : Node)
    (sourceName : String) : List Edge :=
  match clf with
  | none => []
  | some clf =>
      match node.path with
      | none => []
      | some p =>
          if (env p).getD "" = "" then []
          else
            match clf.predict (extract ((env p).getD "")) with
            | [] => []
            | (bestLabel, _) :: _ =>
                if bestLabel = "COLLECT_SUBMODULES" then
                  if p.name = "__init__.py" then
                    [⟨sourceName, sourceName ++ ".*", "predicted", 82/100,
                      "ml_naive_bayes:" ++ bestLabel⟩]
                  else []
                else if bestLabel = "COLLECT_DATA" then
                  [⟨sourceName, "<resource_data>", "predicted", 75/100,
                    "ml_naive_bayes:" ++ bestLabel⟩]
                else []

/-- The literal cross-reference edges (step 2 of `predict`'s loop body). -/
def literalEdges (kb : KnowledgeBase) (node : Node) (sourceName root : String) :
    List Edge :=
  node.literals.filterMap fun lit =>
    if (kbLookup kb lit).isSome ∧ lit ≠ root then
      some ⟨sourceName, lit, "predicted", 60/100, "oracle_literal_match:" ++ lit⟩
    else none

/-- All `add_edge` calls `predict` attempts for one uncertainty zone whose
owning node is `node`, in execution order: the Knowledge-Base branch or the
Generalist branch, then the literal matches.  The list depends on the zone
only through its `source`. -/
def zoneCandidates (kb : KnowledgeBase) (clf : Option Model) (env : FileEnv)
    (node : Node) (sourceName : String) : List Edge :=
  (match kbLookup kb (headSegment sourceName) with
   | some sig => knownWisdomEdges sourceName (headSegment sourceName) sig
   | none => unseenEdges clf env node sourceName)
  ++ literalEdges kb node sourceName (headSegment sourceName)

/-- The body of `predict`'s loop for one zone: look up the owning node
(`continue` if absent — the zone is then left untouched), attempt all
candidate edges through `add_edge`, and mark the zone resolved. -/
def predictZone (kb : KnowledgeBase) (clf : Option Model) (env : FileEnv)
    (g : SideEffectGraph) (z : Zone) : SideEffectGraph × Zone :=
  match g.getNode z.source with
  | none => (g, z)
  | some node =>
      ({ g with edges :=
          (zoneCandidates kb clf env node z.source).foldl addEdgeList g.edges },
       { z with resolved := true })

/-- The loop of `predict` over `_uncertainty_zones`. -/
def predictGo (kb : KnowledgeBase) (clf : Option Model) (env : FileEnv) :
    SideEffectGraph → List Zone → SideEffectGraph × List Zone
  | g, [] => (g, [])
  | g, z :: rest =>
      let p := predictZone kb clf env g z
      let q := predictGo kb clf env p.1 rest
      (q.1, p.2 :: q.2)

/-- `DependencyOracle.predict`.  With an empty Knowledge Base the source
falls back to `_predict_heuristic`, whose body is `pass`: the graph is
returned unchanged (in particular no zone is resolved). -/
def predictAll (kb : KnowledgeBase) (clf : Option Model) (env : FileEnv)
    (g : SideEffectGraph) : SideEffectGraph :=
  if kb.isEmpty then g
  else
    let p := predictGo kb clf env g g.zones
    { p.1 with zones := p.2 }

/-! ### Oracle lemmas -/

theorem tripleMem_iff (es : List Edge) (s t ty : String) :
    tripleMem es s t ty = true ↔ ∃ e ∈ es, e.source = s ∧ e.target = t ∧ e.type = ty := by
  simp [tripleMem, List.any_eq_true]

theorem tripleMem_append_left (es : List Edge) (l : List Edge) (s t ty : String)
    (h : tripleMem es s t ty = true) : tripleMem (es ++ l) s t ty = true := by
  rw [tripleMem_iff] at h ⊢
  rcases h with ⟨e, he, hp⟩
  exact ⟨e, List.mem_append_left _ he, hp⟩

theorem tripleMem_self_append (es : List Edge) (c : Edge) :
    tripleMem (es ++ [c]) c.source c.target c.type = true := by
  rw [tripleMem_iff]
  exact ⟨c, List.mem_append_right _ (List.mem_singleton_self c), rfl, rfl, rfl⟩

theorem addEdgeList_of_present (es : List Edge) (c : Edge)
    (h : tripleMem es c.source c.target c.type = true) : addEdgeList es c = es := by
  simp [addEdgeList, h]

theorem addEdgeList_of_absent (es : List Edge) (c : Edge)
    (h : ¬ tripleMem es c.source c.target c.type = true) :
    addEdgeList es c = es ++ [c] := by
  simp [addEdgeList, h]

theorem mem_addEdgeList_mono (es : List Edge) (c : Edge) :
    ∀ e ∈ es, e ∈ addEdgeList es c := by
  intro e he
  unfold addEdgeList
  split
  · exact he
  · exact List.mem_append_left _ he

theorem tripleMem_addEdgeList_mono (es : List Edge) (c : Edge) (s t ty : String)
    (h : tripleMem es s t ty = true) : tripleMem (addEdgeList es c) s t ty = true := by
  unfold addEdgeList
  split
  · exact h
  · exact tripleMem_append_left es [c] s t ty h

theorem tripleMem_addEdgeList_self (es : List Edge) (c : Edge) :
    tripleMem (addEdgeList es c) c.source c.target c.type = true := by
  by_cases h : tripleMem es c.source c.target c.type = true
  · rw [addEdgeList_of_present es c h]; exact h
  · rw [addEdgeList_of_absent es c h]; exact tripleMem_self_append es c

theorem foldAdd_mem_mono (cs : List Edge) :
    ∀ (es : List Edge), ∀ e ∈ es, e ∈ cs.foldl addEdgeList es := by
  induction cs with
  | nil => intro es e he; exact he
  | cons c cs ih =>
      intro es e he
      rw [List.foldl_cons]
      exact ih _ e (mem_addEdgeList_mono es c e he)

theorem foldAdd_tripleMem_mono (cs : List Edge) :
    ∀ (es : List Edge) (s t ty : String), tripleMem es s t ty = true →
      tripleMem (cs.foldl addEdgeList es) s t ty = true := by
  induction cs with
  | nil => intro es s t ty h; exact h
  | cons c cs ih =>
      intro es s t ty h
      rw [List.foldl_cons]
      exact ih _ s t ty (tripleMem_addEdgeList_mono es c s t ty h)

theorem foldAdd_covers (cs : List Edge) :
    ∀ (es : List Edge), ∀ c ∈ cs,
      tripleMem (cs.foldl addEdgeList es) c.source c.target c.type = true := by
  induction cs with
  | nil => intro es c hc; exact absurd hc (List.not_mem_nil c)
  | cons c0 cs ih =>
      intro es c hc
      rw [List.foldl_cons]
      rcases List.mem_cons.mp hc with rfl | hc
      · exact foldAdd_tripleMem_mono cs _ _ _ _ (tripleMem_addEdgeList_self es c)
      · exact ih _ c hc

theorem foldAdd_noop (cs : List Edge) :
    ∀ (es : List Edge), (∀ c ∈ cs, tripleMem es c.source c.target c.type = true) →
      cs.foldl addEdgeList es = es := by
  induction cs with
  | nil => intro es _; rfl
  | cons c cs ih =>
      intro es h
      rw [List.foldl_cons, addEdgeList_of_present es c (h c (List.mem_cons_self c cs))]
      exact ih es fun c' hc' => h c' (List.mem_cons_of_mem c hc')

theorem getNode_congr (g₁ g₂ : SideEffectGraph) (h : g₁.nodes = g₂.nodes) :
    ∀ n, g₁.getNode n = g₂.getNode n := by
  intro n
  unfold SideEffectGraph.getNode
  rw [h]

section OracleRun

variable (kb : KnowledgeBase) (clf : Option Model) (env : FileEnv)

theorem predictZone_nodes (g : SideEffectGraph) (z : Zone) :
    (predictZone kb clf env g z).1.nodes = g.nodes := by
  unfold predictZone
  cases g.getNode z.source <;> rfl

theorem predictZone_edges_mono (g : SideEffectGraph) (z : Zone) :
    ∀ e ∈ g.edges, e ∈ (predictZone kb clf env g z).1.edges := by
  unfold predictZone
  cases g.getNode z.source with
  | none => intro e he; exact he
  | some node => intro e he; exact foldAdd_mem_mono _ _ e he

theorem predictZone_tripleMem_mono (g : SideEffectGraph) (z : Zone)
    (s t ty : String) (h : tripleMem g.edges s t ty = true) :
    tripleMem (predictZone kb clf env g z).1.edges s t ty = true := by
  unfold predictZone
  cases g.getNode z.source with
  | none => exact h
  | some node => exact foldAdd_tripleMem_mono _ _ s t ty h

theorem predictZone_snd (g : SideEffectGraph) (z : Zone) :
    (predictZone kb clf env g z).2
      = if (g.getNode z.source).isSome then { z with resolved := true } else z := by
  unfold predictZone
  cases g.getNode z.source <;> rfl

theorem predictZone_covers (g : SideEffectGraph) (z : Zone) (node : Node)
    (hnode : g.getNode z.source = some node) :
    ∀ c ∈ zoneCandidates kb clf env node z.source,
      tripleMem (predictZone kb clf env g z).1.edges c.source c.target c.type = true := by
  intro c hc
  unfold predictZone
  rw [hnode]
  exact foldAdd_covers _ _ c hc

theorem predictGo_nodes :
    ∀ (zs : List Zone) (g : SideEffectGraph),
      (predictGo kb clf env g zs).1.nodes = g.nodes := by
  intro zs
  induction zs with
  | nil => intro g; rfl
  | cons z rest ih =>
      intro g
      show (predictGo kb clf env (predictZone kb clf env g z).1 rest).1.nodes = g.nodes
      rw [ih, predictZone_nodes]

theorem predictGo_getNode (zs : List Zone) (g : SideEffectGraph) :
    ∀ n, (predictGo kb clf env g zs).1.getNode n = g.getNode n :=
  getNode_congr _ _ (predictGo_nodes kb clf env zs g)

theorem predictGo_edges_mono :
    ∀ (zs : List Zone) (g : SideEffectGraph),
      ∀ e ∈ g.edges, e ∈ (predictGo kb clf env g zs).1.edges := by
  intro zs
  induction zs with
  | nil => intro g e he; exact he
  | cons z rest ih =>
      intro g e he
      exact ih _ e (predictZone_edges_mono kb clf env g z e he)

theorem predictGo_tripleMem_mono :
    ∀ (zs : List Zone) (g : SideEffectGraph) (s t ty : String),
      tripleMem g.edges s t ty = true →
      tripleMem (predictGo kb clf env g zs).1.edges s t ty = true := by
  intro zs
  induction zs with
  | nil => intro g s t ty h; exact h
  | cons z rest ih =>
      intro g s t ty h
      exact ih _ s t ty (predictZone_tripleMem_mono kb clf env g z s t ty h)

theorem predictGo_covers :
    ∀ (zs : List Zone) (g : SideEffectGraph),
      ∀ z ∈ zs, ∀ node, g.getNode z.source = some node →
        ∀ c ∈ zoneCandidates kb clf env node z.source,
          tripleMem (predictGo kb clf env g zs).1.edges c.source c.target c.type
            = true := by
  intro zs
  induction zs with
  | nil => intro g z hz; exact absurd hz (List.not_mem_nil z)
  | cons z0 rest ih =>
      intro g z hz node hnode c hc
      rcases List.mem_cons.mp hz with rfl | hz
      · exact predictGo_tripleMem_mono kb clf env rest _ _ _ _
          (predictZone_covers kb clf env g z node hnode c hc)
      · refine ih _ z hz node ?_ c hc
        rw [getNode_congr _ _ (predictZone_nodes kb clf env g z0) z.source]
        exact hnode

theorem predictGo_noop :
    ∀ (zs : List Zone) (g : SideEffectGraph),
      (∀ z ∈ zs, ∀ node, g.getNode z.source = some node →
          ∀ c ∈ zoneCandidates kb clf env node z.source,
            tripleMem g.edges c.source c.target c.type = true) →
      (predictGo kb clf env g zs).1.edges = g.edges := by
  intro zs
  induction zs with
  | nil => intro g _; rfl
  | cons z0 rest ih =>
      intro g h
      show (predictGo kb clf env (predictZone kb clf env g z0).1 rest).1.edges = g.edges
      have hz0 : (predictZone kb clf env g z0).1.edges = g.edges := by
        unfold predictZone
        cases hn : g.getNode z0.source with
        | none => rfl
        | some node =>
            exact foldAdd_noop _ _ (h z0 (List.mem_cons_self z0 rest) node hn)
      rw [ih _ ?_, hz0]
      intro z hz node hnode c hc
      rw [hz0]
      refine h z (List.mem_cons_of_mem z0 hz) node ?_ c hc
      rw [← getNode_congr _ _ (predictZone_nodes kb clf env g z0) z.source]
      exact hnode

theorem predictGo_snd :
    ∀ (zs : List Zone) (g : SideEffectGraph),
      (predictGo kb clf env g zs).2
        = zs.map fun z =>
            if (g.getNode z.source).isSome then { z with resolved := true } else z := by
  intro zs
  induction zs with
  | nil => intro g; rfl
  | cons z0 rest ih =>
      intro g
      show (predictZone kb clf env g z0).2
            :: (predictGo kb clf env (predictZone kb clf env g z0).1 rest).2 = _
      rw [List.map_cons, predictZone_snd, ih]
      congr 1
      apply List.map_congr_left
      intro z _
      rw [getNode_congr _ _ (predictZone_nodes kb clf env g z0) z.source]

end OracleRun

theorem predictAll_eq (kb : KnowledgeBase) (clf : Option Model) (env : FileEnv)
    (g : SideEffectGraph) (hkb : kb ≠ []) :
    predictAll kb clf env g
      = { (predictGo kb clf env g g.zones).1 with
          zones := (predictGo kb clf env g g.zones).2 } := by
  have hne : kb.isEmpty = false := by
    cases kb with
    | nil => exact absurd rfl hkb
    | cons a l => rfl
  simp [predictAll, hne]

/-- **C1.** With a non-empty Knowledge Base loaded, `predict()` is
idempotent on any graph whose zones all have an owning node (every graph
the Builder produces is of this shape, since `mark_uncertainty` is only
called right after the owning node was added): the second run produces
exactly the same edge list (the duplicate check of `add_edge` rejects
every re-attempted edge), and already after the first run every
uncertainty zone has `resolved = True`. -/
theorem oracle_predict_idempotent (kb : KnowledgeBase) (clf : Option Model)
    (env : FileEnv) (g : SideEffectGraph) (hkb : kb ≠ [])
    (hwf : ∀ z ∈ g.zones, (g.getNode z.source).isSome = true) :
    (predictAll kb clf env (predictAll kb clf env g)).edges
      = (predictAll kb clf env g).edges
    ∧ ∀ z ∈ (predictAll kb clf env g).zones, z.resolved = true := by
  rw [predictAll_eq kb clf env g hkb]
  set G1 : SideEffectGraph :=
    { (predictGo kb clf env g g.zones).1 with
      zones := (predictGo kb clf env g g.zones).2 } with hG1
  have hG1nodes : G1.nodes = g.nodes := by
    rw [hG1]
    exact predictGo_nodes kb clf env g.zones g
  have hG1get : ∀ n, G1.getNode n = g.getNode n := getNode_congr _ _ hG1nodes
  have hG1edges : G1.edges = (predictGo kb clf env g g.zones).1.edges := rfl
  have hG1zones : G1.zones
      = g.zones.map fun z =>
          if (g.getNode z.source).isSome then { z with resolved := true } else z := by
    rw [hG1]
    exact predictGo_snd kb clf env g.zones g
  constructor
  · -- second run leaves the edge list unchanged
    rw [predictAll_eq kb clf env G1 hkb]
    show (predictGo kb clf env G1 G1.zones).1.edges = G1.edges
    apply predictGo_noop
    intro z' hz' node hnode c hc
    rw [hG1zones] at hz'
    rcases List.mem_map.mp hz' with ⟨z, hz, rfl⟩
    have hsrc : (if (g.getNode z.source).isSome then { z with resolved := true }
        else z).source = z.source := by
      split <;> rfl
    rw [hG1get] at hnode
    rw [hsrc] at hnode hc
    rw [hG1edges]
    exact predictGo_covers kb clf env g.zones g z hz node hnode c hc
  · -- after the first run every zone is resolved
    intro z' hz'
    rw [hG1zones] at hz'
    rcases List.mem_map.mp hz' with ⟨z, hz, rfl⟩
    rw [hwf z hz]
    rfl

/-! ### Knowledge-Base precedence (C2) -/

theorem knownWisdomEdges_source (s r : String) (sig : Signal) :
    ∀ c ∈ knownWisdomEdges s r sig, c.source = s := by
  intro c hc
  unfold knownWisdomEdges at hc
  rcases List.mem_append.mp hc with h | h
  · rcases List.mem_map.mp h with ⟨x, _, rfl⟩
    rfl
  · rcases List.mem_filterMap.mp h with ⟨u, _, hu⟩
    split at hu
    · cases hu
      rfl
    · cases hu

theorem knownWisdomEdges_type (s r : String) (sig : Signal) :
    ∀ c ∈ knownWisdomEdges s r sig, c.type = "predicted" := by
  intro c hc
  unfold knownWisdomEdges at hc
  rcases List.mem_append.mp hc with h | h
  · rcases List.mem_map.mp h with ⟨x, _, rfl⟩
    rfl
  · rcases List.mem_filterMap.mp h with ⟨u, _, hu⟩
    split at hu
    · cases hu
      rfl
    · cases hu

theorem unseenEdges_shape (clf : Option Model) (env : FileEnv) (node : Node)
    (s : String) :
    ∀ c ∈ unseenEdges clf env node s, c.source = s ∧ c.type = "predicted" := by
  intro c hc
  unfold unseenEdges at hc
  repeat' split at hc
  all_goals first
    | exact absurd hc (List.not_mem_nil c)
    | (rcases List.mem_singleton.mp hc with rfl; exact ⟨rfl, rfl⟩)

theorem unseenEdges_source (clf : Option Model) (env : FileEnv) (node : Node)
    (s : String) : ∀ c ∈ unseenEdges clf env node s, c.source = s :=
  fun c hc => (unseenEdges_shape clf env node s c hc).1

theorem unseenEdges_type (clf : Option Model) (env : FileEnv) (node : Node)
    (s : String) : ∀ c ∈ unseenEdges clf env node s, c.type = "predicted" :=
  fun c hc => (unseenEdges_shape clf env node s c hc).2

theorem literalEdges_source (kb : KnowledgeBase) (node : Node) (s r : String) :
    ∀ c ∈ literalEdges kb node s r, c.source = s := by
  intro c hc
  rcases List.mem_filterMap.mp hc with ⟨lit, _, hl⟩
  split at hl
  · cases hl
    rfl
  · cases hl

theorem literalEdges_type (kb : KnowledgeBase) (node : Node) (s r : String) :
    ∀ c ∈ literalEdges kb node s r, c.type = "predicted" := by
  intro c hc
  rcases List.mem_filterMap.mp hc with ⟨lit, _, hl⟩
  split at hl
  · cases hl
    rfl
  · cases hl

theorem zoneCandidates_source (kb : KnowledgeBase) (clf : Option Model)
    (env : FileEnv) (node : Node) (s : String) :
    ∀ c ∈ zoneCandidates kb clf env node s, c.source = s := by
  intro c hc
  unfold zoneCandidates at hc
  rcases List.mem_append.mp hc with h | h
  · split at h
    · exact knownWisdomEdges_source _ _ _ c h
    · exact unseenEdges_source _ _ _ _ c h
  · exact literalEdges_source _ _ _ _ c h

theorem zoneCandidates_type (kb : KnowledgeBase) (clf : Option Model)
    (env : FileEnv) (node : Node) (s : String) :
    ∀ c ∈ zoneCandidates kb clf env node s, c.type = "predicted" := by
  intro c hc
  unfold zoneCandidates at hc
  rcases List.mem_append.mp hc with h | h
  · split at h
    · exact knownWisdomEdges_type _ _ _ c h
    · exact unseenEdges_type _ _ _ _ c h
  · exact literalEdges_type _ _ _ _ c h

/-- First candidate edge with a given target (the edge whose values the
duplicate check of `add_edge` lets through). -/
def firstWithTarget (cs : List Edge) (t : String) : Option Edge :=
  cs.find? (fun c => c.target = t)

/-- Invariant carried through a `predict` run over a fixed node table `N`:
every `predicted` edge in the list is exactly the first candidate with its
target among the candidates of its source's zone. -/
def KInv (kb : KnowledgeBase) (clf : Option Model) (env : FileEnv)
    (N : String → Option Node) (es : List Edge) : Prop :=
  ∀ e ∈ es, e.type = "predicted" →
    ∀ node, N e.source = some node →
      firstWithTarget (zoneCandidates kb clf env node e.source) e.target = some e

theorem foldAdd_KInv (kb : KnowledgeBase) (clf : Option Model) (env : FileEnv)
    (N : String → Option Node) (node₀ : Node) (s₀ : String)
    (hN : N s₀ = some node₀) :
    ∀ (suffix pre es : List Edge),
      zoneCandidates kb clf env node₀ s₀ = pre ++ suffix →
      KInv kb clf env N es →
      (∀ c ∈ pre, tripleMem es c.source c.target c.type = true) →
      KInv kb clf env N (suffix.foldl addEdgeList es) := by
  intro suffix
  induction suffix with
  | nil =>
      intro pre es hsplit hK hpre
      simpa using hK
  | cons c rest ih =>
      intro pre es hsplit hK hpre
      rw [List.foldl_cons]
      have hsplit' : zoneCandidates kb clf env node₀ s₀ = (pre ++ [c]) ++ rest := by
        rw [hsplit, List.append_assoc, List.singleton_append]
      by_cases hmem : tripleMem es c.source c.target c.type = true
      · rw [addEdgeList_of_present es c hmem]
        refine ih (pre ++ [c]) es hsplit' hK ?_
        intro c' hc'
        rcases List.mem_append.mp hc' with h | h
        · exact hpre c' h
        · rcases List.mem_singleton.mp h with rfl
          exact hmem
      · rw [addEdgeList_of_absent es c hmem]
        have hcmem : c ∈ zoneCandidates kb clf env node₀ s₀ := by
          rw [hsplit]
          exact List.mem_append_right _ (List.mem_cons_self c rest)
        have hcsrc : c.source = s₀ := zoneCandidates_source _ _ _ _ _ c hcmem
        have hcty : c.type = "predicted" := zoneCandidates_type _ _ _ _ _ c hcmem
        refine ih (pre ++ [c]) (es ++ [c]) hsplit' ?_ ?_
        · -- the invariant still holds with the appended edge
          intro e he hty node hNe
          rcases List.mem_append.mp he with h1 | h1
          · exact hK e h1 hty node hNe
          · rcases List.mem_singleton.mp h1 with rfl
            rw [hcsrc, hN] at hNe
            cases hNe
            rw [hcsrc, hsplit]
            unfold firstWithTarget
            rw [List.find?_append]
            have hnone : pre.find? (fun c' => c'.target = e.target) = none := by
              rw [List.find?_eq_none]
              intro c' hc' hpc'
              have hc'mem : c' ∈ zoneCandidates kb clf env node₀ s₀ := by
                rw [hsplit]
                exact List.mem_append_left _ hc'
              have h1 : c'.source = s₀ := zoneCandidates_source _ _ _ _ _ c' hc'mem
              have h2 : c'.type = "predicted" := zoneCandidates_type _ _ _ _ _ c' hc'mem
              have h3 : c'.target = e.target := by simpa using hpc'
              have := hpre c' hc'
              rw [h1, h2, h3] at this
              rw [← hcsrc, ← hcty] at this
              exact hmem this
            rw [hnone]
            simp
        · intro c' hc'
          rcases List.mem_append.mp hc' with h | h
          · exact tripleMem_append_left es [c] _ _ _ (hpre c' h)
          · rcases List.mem_singleton.mp h with rfl
            exact tripleMem_self_append es c'

theorem predictZone_KInv (kb : KnowledgeBase) (clf : Option Model) (env : FileEnv)
    (N : String → Option Node) (g : SideEffectGraph) (z : Zone)
    (hgN : ∀ n, g.getNode n = N n)
    (hK : KInv kb clf env N g.edges) :
    KInv kb clf env N (predictZone kb clf env g z).1.edges := by
  unfold predictZone
  cases h : g.getNode z.source with
  | none => simpa using hK
  | some node =>
      have hN : N z.source = some node := by rw [← hgN]; exact h
      exact foldAdd_KInv kb clf env N node z.source hN
        (zoneCandidates kb clf env node z.source) [] g.edges (by simp) hK (by simp)

theorem predictGo_KInv (kb : KnowledgeBase) (clf : Option Model) (env : FileEnv)
    (N : String → Option Node) :
    ∀ (zs : List Zone) (g : SideEffectGraph),
      (∀ n, g.getNode n = N n) →
      KInv kb clf env N g.edges →
      KInv kb clf env N (predictGo kb clf env g zs).1.edges := by
  intro zs
  induction zs with
  | nil => intro g _ hK; exact hK
  | cons z0 rest ih =>
      intro g hgN hK
      refine ih _ ?_ (predictZone_KInv kb clf env N g z0 hgN hK)
      intro n
      rw [getNode_congr _ _ (predictZone_nodes kb clf env g z0) n]
      exact hgN n

theorem find?_map_target (hidden : String) (mk : String → Edge)
    (hmk : ∀ h, (mk h).target = h) :
    ∀ l : List String, hidden ∈ l →
      (l.map mk).find? (fun c => c.target = hidden) = some (mk hidden) := by
  intro l
  induction l with
  | nil => intro h; exact absurd h (List.not_mem_nil hidden)
  | cons a l ih =>
      intro hx
      rw [List.map_cons]
      by_cases ha : a = hidden
      · subst ha
        rw [List.find?_cons_of_pos]
        simp [hmk]
      · rw [List.find?_cons_of_neg]
        · exact ih (by rcases List.mem_cons.mp hx with h | h
                       · exact absurd h.symm ha
                       · exact h)
        · simp [hmk, ha]

/-- The canonical hidden-import edge of `_apply_known_wisdom`. -/
def kbHiddenEdge (s hidden : String) : Edge :=
  ⟨s, hidden, "predicted", 95/100,
    "oracle_hook_knowledge_base[" ++ headSegment s ++ "]"⟩

theorem firstWithTarget_knownWisdom (kb : KnowledgeBase) (clf : Option Model)
    (env : FileEnv) (node : Node) (s : String) (sig : Signal)
    (hroot : kbLookup kb (headSegment s) = some sig)
    (hidden : String) (hh : hidden ∈ sig.hiddenimports) :
    firstWithTarget (zoneCandidates kb clf env node s) hidden
      = some (kbHiddenEdge s hidden) := by
  unfold zoneCandidates firstWithTarget
  rw [hroot, List.find?_append]
  unfold knownWisdomEdges
  rw [List.find?_append]
  have hfind := find?_map_target hidden
    (fun h => ⟨s, h, "predicted", 95/100,
      "oracle_hook_knowledge_base[" ++ headSegment s ++ "]"⟩)
    (fun h => rfl) sig.hiddenimports hh
  rw [hfind]
  rfl

/-- **C2.** For every uncertainty zone whose owning node's root package is
a Knowledge-Base key, `predict()` takes only the Knowledge-Base path: on a
graph fresh from the Builder (no `predicted` edges yet) it leaves, for each
`hiddenimports` entry, exactly the predicted edge owner → entry with
confidence 0.95 and reason `oracle_hook_knowledge_base[root]` in the edge
list, and the processing of that zone is independent of the classifier —
the Generalist path is never executed for it. -/
theorem oracle_kb_precedence (kb : KnowledgeBase) (clf : Option Model)
    (env : FileEnv) (g : SideEffectGraph) (z : Zone) (hz : z ∈ g.zones)
    (node : Node) (hnode : g.getNode z.source = some node)
    (sig : Signal) (hroot : kbLookup kb (headSegment z.source) = some sig)
    (hfresh : ∀ e ∈ g.edges, e.type ≠ "predicted")
    (hidden : String) (hh : hidden ∈ sig.hiddenimports) :
    kbHiddenEdge z.source hidden ∈ (predictAll kb clf env g).edges
    ∧ ∀ (clf₁ clf₂ : Option Model) (g' : SideEffectGraph),
        predictZone kb clf₁ env g' z = predictZone kb clf₂ env g' z := by
  have hkb : kb ≠ [] := by
    intro hnil
    rw [hnil] at hroot
    cases hroot
  constructor
  · rw [predictAll_eq kb clf env g hkb]
    show kbHiddenEdge z.source hidden ∈ (predictGo kb clf env g g.zones).1.edges
    -- the canonical edge is a candidate of this zone
    have hcand : kbHiddenEdge z.source hidden
        ∈ zoneCandidates kb clf env node z.source := by
      unfold zoneCandidates
      rw [hroot]
      apply List.mem_append_left
      unfold knownWisdomEdges
      apply List.mem_append_left
      exact List.mem_map.mpr ⟨hidden, hh, rfl⟩
    -- so after the run some edge with its triple is present
    have hcover := predictGo_covers kb clf env g.zones g z hz node hnode
      (kbHiddenEdge z.source hidden) hcand
    rw [tripleMem_iff] at hcover
    rcases hcover with ⟨e, he, hes, het, hety⟩
    simp only [kbHiddenEdge] at hes het hety
    -- the invariant pins that edge down to the canonical one
    have hK0 : KInv kb clf env g.getNode g.edges := by
      intro e' he' hty'
      exact absurd hty' (hfresh e' he')
    have hK := predictGo_KInv kb clf env g.getNode g.zones g (fun n => rfl) hK0
    have hfirst := hK e he hety node (by rw [hes]; exact hnode)
    rw [hes, het] at hfirst
    rw [firstWithTarget_knownWisdom kb clf env node z.source sig hroot hidden hh]
      at hfirst
    cases hfirst
    exact he
  · -- the classifier is never consulted for a Knowledge-Base zone
    intro clf₁ clf₂ g'
    unfold predictZone
    cases h : g'.getNode z.source with
    | none => rfl
    | some node' =>
        have hcand : zoneCandidates kb clf₁ env node' z.source
            = zoneCandidates kb clf₂ env node' z.source := by
          unfold zoneCandidates
          rw [hroot]
        simp only [hcand]

/-! ### Edge uniqueness (C9) -/

/-- No two edges share their (source, target, type) triple. -/
def NoDupTriples (es : List Edge) : Prop :=
  es.Pairwise fun a b => ¬(a.source = b.source ∧ a.target = b.target ∧ a.type = b.type)

theorem NoDupTriples_addEdgeList (es : List Edge) (c : Edge)
    (h : NoDupTriples es) : NoDupTriples (addEdgeList es c) := by
  by_cases hmem : tripleMem es c.source c.target c.type = true
  · rw [addEdgeList_of_present es c hmem]
    exact h
  · rw [addEdgeList_of_absent es c hmem]
    rw [NoDupTriples, List.pairwise_append]
    refine ⟨h, List.pairwise_singleton _ c, ?_⟩
    intro a ha b hb
    rcases List.mem_singleton.mp hb with rfl
    intro hcontra
    apply hmem
    rw [tripleMem_iff]
    exact ⟨a, ha, hcontra.1.symm ▸ rfl, hcontra.2.1.symm ▸ rfl, hcontra.2.2.symm ▸ rfl⟩

theorem NoDupTriples_foldAdd (cs : List Edge) :
    ∀ es : List Edge, NoDupTriples es → NoDupTriples (cs.foldl addEdgeList es) := by
  induction cs with
  | nil => intro es h; exact h
  | cons c cs ih =>
      intro es h
      rw [List.foldl_cons]
      exact ih _ (NoDupTriples_addEdgeList es c h)

theorem NoDupTriples_addEdge (g : SideEffectGraph) (s t ty : String) (c : ℚ)
    (r : String) (h : NoDupTriples g.edges) :
    NoDupTriples (g.addEdge s t ty c r).edges :=
  NoDupTriples_addEdgeList g.edges _ h

theorem NoDupTriples_visitOne (name : String) (g : SideEffectGraph) (s : PyAST)
    (h : NoDupTriples g.edges) : NoDupTriples (visitOne name g s).edges := by
  cases s with
  | importStmt names =>
      have key : ∀ (ns : List String) (g' : SideEffectGraph), NoDupTriples g'.edges →
          NoDupTriples
            ((ns.foldl (fun gg n => gg.addEdge name n "static" 1 "import_stmt") g').edges) := by
        intro ns
        induction ns with
        | nil => intro g' h'; exact h'
        | cons n ns ih =>
            intro g' h'
            rw [List.foldl_cons]
            exact ih _ (NoDupTriples_addEdge g' name n "static" 1 "import_stmt" h')
      exact key names g h
  | importFrom mod =>
      cases mod with
      | none => exact h
      | some m => exact NoDupTriples_addEdge g name m "static" 1 "from_import_stmt" h
  | constStr v =>
      simp only [visitOne]
      split <;> exact h
  | callAttr attr line cs =>
      simp only [visitOne]
      split <;> exact h
  | callName id line cs =>
      simp only [visitOne]
      split <;> exact h
  | other cs => exact h

theorem NoDupTriples_foldVisit (name : String) :
    ∀ (l : List PyAST) (g : SideEffectGraph), NoDupTriples g.edges →
      NoDupTriples ((l.foldl (visitOne name) g).edges) := by
  intro l
  induction l with
  | nil => intro g h; exact h
  | cons s l ih =>
      intro g h
      rw [List.foldl_cons]
      exact ih _ (NoDupTriples_visitOne name g s h)

theorem NoDupTriples_analyzeFile (g : SideEffectGraph) (m : String) (p : PathT)
    (t : Option PyAST) (h : NoDupTriples g.edges) :
    NoDupTriples (analyzeFile g m p t).edges := by
  cases t with
  | none =>
      show NoDupTriples (g.addNode m (some p)).edges
      rw [addNode_edges]
      exact h
  | some tree =>
      show NoDupTriples (visitTree (g.addNode m (some p)) m tree).edges
      unfold visitTree
      apply NoDupTriples_foldVisit
      rw [addNode_edges]
      exact h

theorem NoDupTriples_predictZone (kb : KnowledgeBase) (clf : Option Model)
    (env : FileEnv) (g : SideEffectGraph) (z : Zone) (h : NoDupTriples g.edges) :
    NoDupTriples (predictZone kb clf env g z).1.edges := by
  unfold predictZone
  cases g.getNode z.source with
  | none => exact h
  | some node => exact NoDupTriples_foldAdd _ _ h

theorem NoDupTriples_predictGo (kb : KnowledgeBase) (clf : Option Model)
    (env : FileEnv) :
    ∀ (zs : List Zone) (g : SideEffectGraph), NoDupTriples g.edges →
      NoDupTriples (predictGo kb clf env g zs).1.edges := by
  intro zs
  induction zs with
  | nil => intro g h; exact h
  | cons z0 rest ih =>
      intro g h
      exact ih _ (NoDupTriples_predictZone kb clf env g z0 h)

theorem NoDupTriples_predictAll (kb : KnowledgeBase) (clf : Option Model)
    (env : FileEnv) (g : SideEffectGraph) (h : NoDupTriples g.edges) :
    NoDupTriples (predictAll kb clf env g).edges := by
  unfold predictAll
  split
  · exact h
  · exact NoDupTriples_predictGo kb clf env g.zones g h

/-- The graphs reachable by any sequence of `SideEffectGraph` operations:
the primitives plus the Builder and Oracle routines built on them. -/
inductive Built : SideEffectGraph → Prop where
  | init : Built SideEffectGraph.init
  | addNode (g : SideEffectGraph) (name : String) (path : Option PathT) :
      Built g → Built (g.addNode name path)
  | addEdge (g : SideEffectGraph) (s t ty : String) (c : ℚ) (r : String) :
      Built g → Built (g.addEdge s t ty c r)
  | markUncertainty (g : SideEffectGraph) (s : String) (l : ℕ) (c h : String) :
      Built g → Built (g.markUncertainty s l c h)
  | analyze (g : SideEffectGraph) (m : String) (p : PathT) (t : Option PyAST) :
      Built g → Built (analyzeFile g m p t)
  | predict (g : SideEffectGraph) (kb : KnowledgeBase) (clf : Option Model)
      (env : FileEnv) : Built g → Built (predictAll kb clf env g)

/-- **C9.** Along every sequence of graph operations (`add_node`,
`add_edge`, `mark_uncertainty`, the Builder's per-file analysis and the
Oracle's `predict`), the edge list never contains two edges with the same
(source, target, type) triple. -/
theorem graph_edge_triple_unique (g : SideEffectGraph) (h : Built g) :
    NoDupTriples g.edges := by
  induction h with
  | init => exact List.Pairwise.nil
  | addNode g name path _ ih =>
      show NoDupTriples (g.addNode name path).edges
      rw [addNode_edges]
      exact ih
  | addEdge g s t ty c r _ ih => exact NoDupTriples_addEdge g s t ty c r ih
  | markUncertainty g s l c hn _ ih => exact ih
  | analyze g m p t _ ih => exact NoDupTriples_analyzeFile g m p t ih
  | predict g kb clf env _ ih => exact NoDupTriples_predictAll kb clf env g ih

/-- Witness for C9 at a concrete operation sequence: build two static edges
(the second a duplicate attempt) plus an uncertainty zone. -/
theorem graph_edge_triple_unique_witness :
    NoDupTriples
      ((((SideEffectGraph.init.addEdge "a" "b" "static" 1 "import_stmt").addEdge
          "a" "b" "static" 1 "import_stmt").markUncertainty "a" 3 "import_module"
          "dynamic_import").edges) :=
  graph_edge_triple_unique _
    (Built.markUncertainty _ "a" 3 "import_module" "dynamic_import"
      (Built.addEdge _ "a" "b" "static" 1 "import_stmt"
        (Built.addEdge _ "a" "b" "static" 1 "import_stmt" Built.init)))

/-! ### Witnesses for the Oracle claims -/

/-- Witness for C1: a one-zone graph and a one-key Knowledge Base. -/
theorem oracle_predict_idempotent_witness :
    (predictAll [("pkg", ⟨["hid"], []⟩)] none (fun _ => none)
        (predictAll [("pkg", ⟨["hid"], []⟩)] none (fun _ => none)
          ⟨[("pkg.mod", ⟨"pkg.mod", none, "module", [], []⟩)], [],
            [⟨"pkg.mod", 1, "import_module", "dynamic_import", false⟩]⟩)).edges
      = (predictAll [("pkg", ⟨["hid"], []⟩)] none (fun _ => none)
          ⟨[("pkg.mod", ⟨"pkg.mod", none, "module", [], []⟩)], [],
            [⟨"pkg.mod", 1, "import_module", "dynamic_import", false⟩]⟩).edges
    ∧ ∀ z ∈ (predictAll [("pkg", ⟨["hid"], []⟩)] none (fun _ => none)
          ⟨[("pkg.mod", ⟨"pkg.mod", none, "module", [], []⟩)], [],
            [⟨"pkg.mod", 1, "import_module", "dynamic_import", false⟩]⟩).zones,
        z.resolved = true :=
  oracle_predict_idempotent [("pkg", ⟨["hid"], []⟩)] none (fun _ => none)
    ⟨[("pkg.mod", ⟨"pkg.mod", none, "module", [], []⟩)], [],
      [⟨"pkg.mod", 1, "import_module", "dynamic_import", false⟩]⟩
    (by decide) (by decide)

/-- Witness for C2 at the same concrete graph. -/
theorem oracle_kb_precedence_witness :
    kbHiddenEdge "pkg.mod" "hid"
      ∈ (predictAll [("pkg", ⟨["hid"], []⟩)] none (fun _ => none)
          ⟨[("pkg.mod", ⟨"pkg.mod", none, "module", [], []⟩)], [],
            [⟨"pkg.mod", 1, "import_module", "dynamic_import", false⟩]⟩).edges
    ∧ ∀ (clf₁ clf₂ : Option Model) (g' : SideEffectGraph),
        predictZone [("pkg", ⟨["hid"], []⟩)] clf₁ (fun _ => none) g'
            ⟨"pkg.mod", 1, "import_module", "dynamic_import", false⟩
          = predictZone [("pkg", ⟨["hid"], []⟩)] clf₂ (fun _ => none) g'
            ⟨"pkg.mod", 1, "import_module", "dynamic_import", false⟩ :=
  oracle_kb_precedence [("pkg", ⟨["hid"], []⟩)] none (fun _ => none)
    ⟨[("pkg.mod", ⟨"pkg.mod", none, "module", [], []⟩)], [],
      [⟨"pkg.mod", 1, "import_module", "dynamic_import", false⟩]⟩
    ⟨"pkg.mod", 1, "import_module", "dynamic_import", false⟩ (by decide)
    ⟨"pkg.mod", none, "module", [], []⟩ (by decide)
    ⟨["hid"], []⟩ (by rfl)
    (by intro e he; cases he)
    "hid" (by decide)

/-! ## Build pipeline (`pytron/pack/pipeline.py`) — C8, C10

Exceptions are embedded in the `Except` monad.  `PyErr` covers the
`Exception`-derived values the pipeline can see: `BuildError`,
its subclass `ModuleError` (carrying the failing module's class name), and
any other exception. -/

namespace Pipeline

inductive PyErr where
  | buildError (msg : String) : PyErr
  | moduleError (msg moduleName : String) : PyErr
  | otherError (msg : String) : PyErr
  deriving DecidableEq, Repr

/-- `isinstance(e, BuildError)` (ModuleError subclasses BuildError). -/
def PyErr.isBuildError : PyErr → Bool
  | .buildError _ => true
  | .moduleError _ _ => true
  | .otherError _ => false

/-- `isinstance(e, ModuleError)`. -/
def PyErr.isModuleError : PyErr → Bool
  | .moduleError _ _ => true
  | _ => false

def PyErr.msg : PyErr → String
  | .buildError m => m
  | .moduleError m _ => m
  | .otherError m => m

/-- A `BuildModule` over an abstract build-context type: its registered
class name plus the three phase methods.  The defaults mirror the base
class (`prepare`/`post_build` do nothing, `build_wrapper` calls through). -/
structure BuildModule (Ctx : Type) where
  name : String
  prepare : Ctx → Except PyErr Ctx := fun c => .ok c
  buildWrapper : Ctx → (Ctx → Except PyErr Int) → Except PyErr Int :=
    fun c f => f c
  postBuild : Ctx → Except PyErr Unit := fun _ => .ok ()

variable {Ctx : Type}

/-- Phase 1 of `Pipeline.run`: each module's `prepare` in registration
order; an exception is wrapped into a `ModuleError` naming the module. -/
def prepareAll : List (BuildModule Ctx) → Ctx → Except PyErr Ctx
  | [], c => .ok c
  | m :: ms, c =>
      match m.prepare c with
      | .ok c' => prepareAll ms c'
      | .error e =>
          .error (.moduleError ("Preparation failed: " ++ e.msg) m.name)

/-- `make_wrapper`: run the module's `build_wrapper`; re-raise
`ModuleError`s, wrap any other exception into a `ModuleError`. -/
def makeWrapper (m : BuildModule Ctx) (f : Ctx → Except PyErr Int) :
    Ctx → Except PyErr Int := fun c =>
  match m.buildWrapper c f with
  | .ok n => .ok n
  | .error e =>
      if e.isModuleError then .error e
      else .error (.moduleError ("Build step failed: " ++ e.msg) m.name)

/-- Phase 2: the wrapper chain.  Wrapping in reverse registration order
makes the first-registered module the outermost wrapper. -/
def chainBuild (ms : List (BuildModule Ctx)) (core : Ctx → Except PyErr Int) :
    Ctx → Except PyErr Int :=
  ms.reverse.foldl (fun f m => makeWrapper m f) core

/-- The `try` around `current_build_func(self.context)`: `BuildError`s
re-raise, anything else becomes a `BuildError`. -/
def runBuild (ms : List (BuildModule Ctx)) (ctx : Ctx)
    (core : Ctx → Except PyErr Int) : Except PyErr Int :=
  match chainBuild ms core ctx with
  | .ok n => .ok n
  | .error e =>
      if e.isBuildError then .error e
      else .error (.buildError ("Core build execution failed: " ++ e.msg))

/-- Phase 3: every module's `post_build`; a failure only yields a warning
log line (message, style) and the loop continues. -/
def postBuildAll (ms : List (BuildModule Ctx)) (ctx : Ctx) :
    List (String × String) :=
  ms.flatMap fun m =>
    match m.postBuild ctx with
    | .ok _ => []
    | .error e =>
        [("Warning: [" ++ m.name ++ "] post_build failed: " ++ e.msg, "warning")]

/-- The log lines of the outer exception handlers (both return 1). -/
def errorLogs (e : PyErr) : List (String × String) :=
  if e.isBuildError then [("Pipeline Error: " ++ e.msg, "error")]
  else [("Unexpected Pipeline Crash: " ++ e.msg, "error")]

/-- `Pipeline.run`: returns the exit code and the log lines it emitted. -/
def run (ms : List (BuildModule Ctx)) (ctx : Ctx)
    (core : Ctx → Except PyErr Int) : Int × List (String × String) :=
  match prepareAll ms ctx with
  | .error e => (1, errorLogs e)
  | .ok ctx' =>
      match runBuild ms ctx' core with
      | .error e => (1, errorLogs e)
      | .ok ret =>
          if ret = 0 then (ret, postBuildAll ms ctx')
          else (ret, [])

/-- **C8.** Whenever the (wrapped) build phase returns exit code 0, the
pipeline result is 0 no matter what the modules' `post_build` steps do:
every `post_build` failure only surfaces as a `"warning"`-styled log
line. -/
theorem postBuild_failure_isolated (ms : List (BuildModule Ctx)) (ctx : Ctx)
    (core : Ctx → Except PyErr Int) (ctx' : Ctx)
    (hprep : prepareAll ms ctx = .ok ctx')
    (hbuild : runBuild ms ctx' core = .ok 0) :
    (run ms ctx core).1 = 0
    ∧ ∀ l ∈ (run ms ctx core).2, l.2 = "warning" := by
  unfold run
  simp only [hprep, hbuild, if_pos]
  constructor
  · trivial
  · intro l hl
    rcases List.mem_flatMap.mp hl with ⟨m, _, hm⟩
    revert hm
    cases m.postBuild ctx' with
    | ok u => intro hm; cases hm
    | error e =>
        intro hm
        rcases List.mem_singleton.mp hm with rfl
        rfl

/-- Witness for C8: one registered module whose `post_build` raises. -/
theorem postBuild_failure_isolated_witness :
    (@run Unit
        [{ name := "Boom", postBuild := fun _ => .error (.otherError "boom") }]
        () (fun _ => .ok 0)).1 = 0
    ∧ ∀ l ∈ (@run Unit
        [{ name := "Boom", postBuild := fun _ => .error (.otherError "boom") }]
        () (fun _ => .ok 0)).2, l.2 = "warning" :=
  postBuild_failure_isolated
    [{ name := "Boom", postBuild := fun _ => .error (.otherError "boom") }]
    () (fun _ => .ok 0) () rfl rfl

/-- **C10.** `Pipeline.run` is total over module failures: it always
returns an exit code (never re-raises — the embedding's `run` is a plain
function into `Int × logs`, every `except` branch of the source being one
of its cases), and whenever the prepare phase or the wrapped build phase
fails with an exception, the returned exit code is the integer 1. -/
theorem pipeline_run_total (ms : List (BuildModule Ctx)) (ctx : Ctx)
    (core : Ctx → Except PyErr Int)
    (hfail : (∃ e, prepareAll ms ctx = .error e)
      ∨ ∃ ctx' e, prepareAll ms ctx = .ok ctx' ∧ runBuild ms ctx' core = .error e) :
    (run ms ctx core).1 = 1 := by
  unfold run
  rcases hfail with ⟨e, he⟩ | ⟨ctx', e, hok, he⟩
  · simp only [he]
  · simp only [hok, he]

/-- Witness for C10: a module whose `prepare` raises, and a core build
function that raises. -/
theorem pipeline_run_total_witness :
    (@run Unit
        [{ name := "Prep", prepare := fun _ => .error (.otherError "nope") }]
        () (fun _ => .ok 0)).1 = 1
    ∧ (@run Unit [] () (fun _ => .error (.otherError "core"))).1 = 1 :=
  ⟨pipeline_run_total
      [{ name := "Prep", prepare := fun _ => .error (.otherError "nope") }]
      () (fun _ => .ok 0) (Or.inl ⟨_, rfl⟩),
   pipeline_run_total [] () (fun _ => .error (.otherError "core"))
      (Or.inr ⟨(), _, rfl, rfl⟩)⟩

end Pipeline

/-! ## Runtime auditor "Crystal" (`pytron/pack/crystal.py`) — C7

The generated harness's `dump_manifest` reads the existing lock file,
merges the live accumulator sets into it and writes the result:
`final = sorted(list(set(existing + live)))` for both `modules` and
`files`. -/

namespace Crystal

/-- The audit manifest (one JSON lock file). -/
structure Manifest where
  modules : List String
  files : List String
  deriving DecidableEq, Repr

/-- `dump_manifest`, as a function from the manifest on disk and the run's
live accumulators to the manifest written back. -/
def dumpManifest (existing : Manifest) (liveModules liveFiles : List String) :
    Manifest :=
  { modules := ((existing.modules ++ liveModules).toFinset).sort (· ≤ ·)
    files := ((existing.files ++ liveFiles).toFinset).sort (· ≤ ·) }

theorem mem_dumpManifest_modules (existing : Manifest) (lm lf : List String)
    (x : String) :
    x ∈ (dumpManifest existing lm lf).modules ↔
      x ∈ existing.modules ∨ x ∈ lm := by
  unfold dumpManifest
  simp [Finset.mem_sort]

theorem mem_dumpManifest_files (existing : Manifest) (lm lf : List String)
    (x : String) :
    x ∈ (dumpManifest existing lm lf).files ↔
      x ∈ existing.files ∨ x ∈ lf := by
  unfold dumpManifest
  simp [Finset.mem_sort]

/-- **C7.** Two consecutive audit runs over the same manifest file, the
second observing a superset of the first run's modules and files: the
manifest written by the second run contains the union of both runs'
observations, and the persisted `modules`/`files` sets never shrink. -/
theorem auditor_merge_law (m0 : Manifest) (l1m l1f l2m l2f : List String)
    (hm : ∀ x ∈ l1m, x ∈ l2m) (hf : ∀ x ∈ l1f, x ∈ l2f) :
    (∀ x, (x ∈ l1m ∨ x ∈ l2m) →
        x ∈ (dumpManifest (dumpManifest m0 l1m l1f) l2m l2f).modules)
    ∧ (∀ x ∈ (dumpManifest m0 l1m l1f).modules,
        x ∈ (dumpManifest (dumpManifest m0 l1m l1f) l2m l2f).modules)
    ∧ (∀ x, (x ∈ l1f ∨ x ∈ l2f) →
        x ∈ (dumpManifest (dumpManifest m0 l1m l1f) l2m l2f).files)
    ∧ (∀ x ∈ (dumpManifest m0 l1m l1f).files,
        x ∈ (dumpManifest (dumpManifest m0 l1m l1f) l2m l2f).files) := by
  refine ⟨?_, ?_, ?_, ?_⟩
  · intro x hx
    rw [mem_dumpManifest_modules]
    rcases hx with hx | hx
    · exact Or.inr (hm x hx)
    · exact Or.inr hx
  · intro x hx
    rw [mem_dumpManifest_modules]
    exact Or.inl hx
  · intro x hx
    rw [mem_dumpManifest_files]
    rcases hx with hx | hx
    · exact Or.inr (hf x hx)
    · exact Or.inr hx
  · intro x hx
    rw [mem_dumpManifest_files]
    exact Or.inl hx

/-- Witness for C7: the second run observes a strict superset. -/
theorem auditor_merge_law_witness :
    (∀ x, (x ∈ ["os"] ∨ x ∈ ["os", "sys"]) →
        x ∈ (dumpManifest (dumpManifest ⟨[], []⟩ ["os"] ["a.py"])
              ["os", "sys"] ["a.py", "b.py"]).modules)
    ∧ (∀ x ∈ (dumpManifest ⟨[], []⟩ ["os"] ["a.py"]).modules,
        x ∈ (dumpManifest (dumpManifest ⟨[], []⟩ ["os"] ["a.py"])
              ["os", "sys"] ["a.py", "b.py"]).modules)
    ∧ (∀ x, (x ∈ ["a.py"] ∨ x ∈ ["a.py", "b.py"]) →
        x ∈ (dumpManifest (dumpManifest ⟨[], []⟩ ["os"] ["a.py"])
              ["os", "sys"] ["a.py", "b.py"]).files)
    ∧ (∀ x ∈ (dumpManifest ⟨[], []⟩ ["os"] ["a.py"]).files,
        x ∈ (dumpManifest (dumpManifest ⟨[], []⟩ ["os"] ["a.py"])
              ["os", "sys"] ["a.py", "b.py"]).files) :=
  auditor_merge_law ⟨[], []⟩ ["os"] ["a.py"] ["os", "sys"] ["a.py", "b.py"]
    (by decide) (by decide)

end Crystal

/-! ## Site-package introspector (`pytron/pack/introspect.py`) — C6 -/

namespace Introspect

/-- The filesystem observations `analyze_package` and the flag-emission
loop make about one resolved install path: its final component
(`Path.name`, the import name), whether it is a directory, the number of
native extension files under it (`*.pyd` + `*.so`), its `__init__.py`
source text (`none` when absent or unreadable), and whether compiling that
initializer yields a `LOAD_GLOBAL lazy_loader` instruction. -/
structure PackageDir where
  name : String
  isDir : Bool
  nativeCount : ℕ
  initPy : Option String
  initBytecodeLazyLoader : Bool
  deriving DecidableEq, Repr

/-- The installed-package universe: `resolve_package_path` (a filesystem +
`importlib.metadata` lookup, external to the analyzed logic) as an
environment function.  It is deterministic within one run, which is what
the source relies on when it calls it twice per package. -/
structure Env where
  resolve : String → Option PackageDir

/-- The curated allowlist of `analyze_package`. -/
def wellKnownSafe : List String :=
  ["numpy", "torch", "pandas", "matplotlib", "setuptools", "pkg_resources"]

/-- `DependencyIntrospector.analyze_package`. -/
def analyzePackage (env : Env) (pkg : String) : String :=
  match env.resolve pkg with
  | none => "STANDARD"
  | some path =>
      if ¬ path.isDir then "STANDARD"
      else if path.nativeCount > 15 then "COLLECT_ALL"
      else
        match path.initPy with
        | none => "STANDARD"
        | some content =>
            if containsSub content "lazy_loader" then "COLLECT_ALL"
            else if pkg.toLower ∉ wellKnownSafe ∧
                (containsSub content "importlib.import_module"
                  ∨ containsSub content "__import__") then "COLLECT_ALL"
            else if path.initBytecodeLazyLoader then "COLLECT_ALL"
            else "STANDARD"

/-- The flag the strategy loop emits for one package of the universe:
for a `COLLECT_ALL` package the target is the resolved install directory's
name (the import name); only when path resolution failed does it fall back
to the (possibly hyphenated) distribution name. -/
def flagFor (env : Env) (pkg : String) : Option String :=
  if analyzePackage env pkg = "COLLECT_ALL" then
    some (match env.resolve pkg with
          | some path => "--collect-all=" ++ path.name
          | none => "--collect-all=" ++ pkg)
  else none

/-- `determine_packaging_strategy`'s emission loop over the expanded
dependency universe (`get_recursive_dependencies` queries installed
metadata to a fixed point; its finite result list is taken as input
here). -/
def determinePackagingStrategy (env : Env) (uni : List String) :
    List String :=
  uni.filterMap (flagFor env)

/-- **C6.** Every package of the universe classified `COLLECT_ALL` whose
install path resolves yields the flag `--collect-all=<install directory
name>` — the import name, never the distribution name. -/
theorem introspector_import_name (env : Env) (uni : List String)
    (pkg : String) (hpkg : pkg ∈ uni) (path : PackageDir)
    (hres : env.resolve pkg = some path)
    (hca : analyzePackage env pkg = "COLLECT_ALL") :
    flagFor env pkg = some ("--collect-all=" ++ path.name)
    ∧ ("--collect-all=" ++ path.name)
        ∈ determinePackagingStrategy env uni := by
  have hflag : flagFor env pkg = some ("--collect-all=" ++ path.name) := by
    unfold flagFor
    rw [if_pos hca, hres]
  exact ⟨hflag, List.mem_filterMap.mpr ⟨pkg, hpkg, hflag⟩⟩

/-- Witness for C6: distribution `scikit-image` installed as directory
`skimage`, classified `COLLECT_ALL` through the `lazy_loader` heuristic:
the emitted flag targets `skimage`. -/
theorem introspector_import_name_witness :
    flagFor
        ⟨fun p => if p = "scikit-image" then
            some ⟨"skimage", true, 0, some "import lazy_loader as lazy", false⟩
          else none⟩ "scikit-image"
      = some "--collect-all=skimage"
    ∧ "--collect-all=skimage"
        ∈ determinePackagingStrategy
            ⟨fun p => if p = "scikit-image" then
                some ⟨"skimage", true, 0, some "import lazy_loader as lazy", false⟩
              else none⟩ ["scikit-image"] :=
  introspector_import_name
    ⟨fun p => if p = "scikit-image" then
        some ⟨"skimage", true, 0, some "import lazy_loader as lazy", false⟩
      else none⟩ ["scikit-image"] "scikit-image" (by decide)
    ⟨"skimage", true, 0, some "import lazy_loader as lazy", false⟩
    (by decide) (by decide)

end Introspect

/-! ## Classifier lemmas (C4, C5) -/

theorem foldFC (label : String) :
    ∀ (features : List String) (fc0 : String → String → ℕ) (l x : String),
      (features.foldl
          (fun fc f => fun l' x' => if l' = label ∧ x' = f then fc l' x' + 1 else fc l' x')
          fc0) l x
        = fc0 l x + (if l = label then features.count x else 0) := by
  intro features
  induction features with
  | nil => intro fc0 l x; simp
  | cons f fs ih =>
      intro fc0 l x
      rw [List.foldl_cons, ih]
      by_cases hl : l = label
      · by_cases hx : x = f <;>
          simp [hl, hx, List.count_cons] <;> omega
      · simp [hl]

theorem foldTC (label : String) :
    ∀ (features : List String) (tc0 : String → ℕ) (l : String),
      (features.foldl (fun tc _ => fun l' => if l' = label then tc l' + 1 else tc l') tc0) l
        = tc0 l + (if l = label then features.length else 0) := by
  intro features
  induction features with
  | nil => intro tc0 l; simp
  | cons f fs ih =>
      intro tc0 l
      rw [List.foldl_cons, ih]
      by_cases hl : l = label <;> simp [hl] <;> omega

theorem foldVocab :
    ∀ (features : List String) (v0 : Finset String),
      features.foldl (fun v f => insert f v) v0 = v0 ∪ features.toFinset := by
  intro features
  induction features with
  | nil => intro v0; simp
  | cons f fs ih =>
      intro v0
      rw [List.foldl_cons, ih, List.toFinset_cons]
      ext x
      simp [or_assoc, or_left_comm]

theorem train_classCounts (m : Model) (F : List String) (l0 l : String) :
    (m.train F l0).classCounts l
      = m.classCounts l + (if l = l0 then 1 else 0) := by
  show (if l = l0 then m.classCounts l + 1 else m.classCounts l) = _
  split <;> omega

theorem train_featureCounts (m : Model) (F : List String) (l0 l x : String) :
    (m.train F l0).featureCounts l x
      = m.featureCounts l x + (if l = l0 then F.count x else 0) :=
  foldFC l0 F m.featureCounts l x

theorem train_tokenCounts (m : Model) (F : List String) (l0 l : String) :
    (m.train F l0).classTokenCounts l
      = m.classTokenCounts l + (if l = l0 then F.length else 0) :=
  foldTC l0 F m.classTokenCounts l

theorem train_vocab (m : Model) (F : List String) (l0 : String) :
    (m.train F l0).vocab = m.vocab ∪ F.toFinset :=
  foldVocab F m.vocab

theorem train_total (m : Model) (F : List String) (l0 : String) :
    (m.train F l0).totalExamples = m.totalExamples + 1 := rfl

theorem train_labels (m : Model) (F : List String) (l0 : String) :
    (m.train F l0).labels
      = if l0 ∈ m.labels then m.labels else m.labels ++ [l0] := rfl

/-- A model produced only by `train` calls, in call order. -/
def trainAll (D : List (List String × String)) : Model :=
  D.foldl (fun m ex => m.train ex.1 ex.2) Model.init

theorem train_mem_labels (m : Model) (F0 : List String) (l0 l : String) :
    l ∈ (m.train F0 l0).labels ↔ l ∈ m.labels ∨ l = l0 := by
  rw [train_labels]
  split
  · rename_i h
    constructor
    · exact fun h' => Or.inl h'
    · intro h'
      rcases h' with h' | rfl
      · exact h'
      · exact h
  · constructor
    · intro h'
      rcases List.mem_append.mp h' with h' | h'
      · exact Or.inl h'
      · exact Or.inr (List.mem_singleton.mp h')
    · intro h'
      rcases h' with h' | rfl
      · exact List.mem_append_left _ h'
      · exact List.mem_append_right _ (List.mem_singleton_self l)

theorem foldTrain_classCounts :
    ∀ (D : List (List String × String)) (m : Model) (l : String),
      (D.foldl (fun m' ex => m'.train ex.1 ex.2) m).classCounts l
        = m.classCounts l + D.countP (fun ex => ex.2 = l) := by
  intro D
  induction D with
  | nil => intro m l; simp
  | cons ex D ih =>
      intro m l
      rw [List.foldl_cons, ih, train_classCounts, List.countP_cons]
      by_cases h : ex.2 = l
      · rw [if_pos h.symm, if_pos (by simpa using h)]
        omega
      · rw [if_neg (fun hh => h hh.symm), if_neg (by simpa using h)]
        omega

theorem foldTrain_total :
    ∀ (D : List (List String × String)) (m : Model),
      (D.foldl (fun m' ex => m'.train ex.1 ex.2) m).totalExamples
        = m.totalExamples + D.length := by
  intro D
  induction D with
  | nil => intro m; simp
  | cons ex D ih =>
      intro m
      rw [List.foldl_cons, ih, train_total, List.length_cons]
      omega

theorem foldTrain_featureCounts :
    ∀ (D : List (List String × String)) (m : Model) (l x : String),
      (D.foldl (fun m' ex => m'.train ex.1 ex.2) m).featureCounts l x
        = m.featureCounts l x
          + (D.map (fun ex => if ex.2 = l then ex.1.count x else 0)).sum := by
  intro D
  induction D with
  | nil => intro m l x; simp
  | cons ex D ih =>
      intro m l x
      rw [List.foldl_cons, ih, train_featureCounts, List.map_cons, List.sum_cons]
      by_cases h : ex.2 = l
      · rw [if_pos h.symm, if_pos h]
        omega
      · rw [if_neg (fun hh => h hh.symm), if_neg h]
        omega

theorem foldTrain_tokenCounts :
    ∀ (D : List (List String × String)) (m : Model) (l : String),
      (D.foldl (fun m' ex => m'.train ex.1 ex.2) m).classTokenCounts l
        = m.classTokenCounts l
          + (D.map (fun ex => if ex.2 = l then ex.1.length else 0)).sum := by
  intro D
  induction D with
  | nil => intro m l; simp
  | cons ex D ih =>
      intro m l
      rw [List.foldl_cons, ih, train_tokenCounts, List.map_cons, List.sum_cons]
      by_cases h : ex.2 = l
      · rw [if_pos h.symm, if_pos h]
        omega
      · rw [if_neg (fun hh => h hh.symm), if_neg h]
        omega

theorem foldTrain_vocab_const (F : List String) :
    ∀ (D : List (List String × String)) (m : Model),
      (∀ ex ∈ D, ex.1 = F) → D ≠ [] →
      (D.foldl (fun m' ex => m'.train ex.1 ex.2) m).vocab
        = m.vocab ∪ F.toFinset := by
  intro D
  induction D with
  | nil => intro m _ h; exact absurd rfl h
  | cons ex D ih =>
      intro m hD _
      rw [List.foldl_cons]
      have hex : ex.1 = F := hD ex (List.mem_cons_self ex D)
      cases D with
      | nil =>
          show (m.train ex.1 ex.2).vocab = _
          rw [train_vocab, hex]
      | cons ex2 D2 =>
          rw [ih (m.train ex.1 ex.2)
              (fun e he => hD e (List.mem_cons_of_mem ex he)) (by simp),
            train_vocab, hex, Finset.union_assoc, Finset.union_self]

theorem foldTrain_mem_labels :
    ∀ (D : List (List String × String)) (m : Model) (l : String),
      l ∈ (D.foldl (fun m' ex => m'.train ex.1 ex.2) m).labels
        ↔ l ∈ m.labels ∨ ∃ ex ∈ D, ex.2 = l := by
  intro D
  induction D with
  | nil => intro m l; simp
  | cons ex D ih =>
      intro m l
      rw [List.foldl_cons, ih, train_mem_labels]
      constructor
      · rintro ((h | h) | h)
        · exact Or.inl h
        · exact Or.inr ⟨ex, List.mem_cons_self ex D, h.symm⟩
        · rcases h with ⟨e, he, hel⟩
          exact Or.inr ⟨e, List.mem_cons_of_mem ex he, hel⟩
      · rintro (h | ⟨e, he, hel⟩)
        · exact Or.inl (Or.inl h)
        · rcases List.mem_cons.mp he with rfl | he'
          · exact Or.inl (Or.inr hel.symm)
          · exact Or.inr ⟨e, he', hel⟩

theorem countP_label_eq_count (F : List String) (A B : String) (hAB : A ≠ B) :
    ∀ D : List (List String × String),
      (∀ ex ∈ D, ex = (F, A) ∨ ex = (F, B)) →
      D.countP (fun ex => ex.2 = A) = D.count (F, A) := by
  intro D
  induction D with
  | nil => intro _; rfl
  | cons ex D ih =>
      intro hD
      rw [List.countP_cons, List.count_cons,
        ih (fun e he => hD e (List.mem_cons_of_mem ex he))]
      rcases hD ex (List.mem_cons_self ex D) with rfl | rfl
      · simp
      · simp [hAB, Ne.symm hAB]

theorem sum_if_label_count (F : List String) (A B x : String) (hAB : A ≠ B) :
    ∀ D : List (List String × String),
      (∀ ex ∈ D, ex = (F, A) ∨ ex = (F, B)) →
      (D.map (fun ex => if ex.2 = A then ex.1.count x else 0)).sum
        = D.count (F, A) * F.count x := by
  intro D
  induction D with
  | nil => intro _; simp
  | cons ex D ih =>
      intro hD
      rw [List.map_cons, List.sum_cons, List.count_cons,
        ih (fun e he => hD e (List.mem_cons_of_mem ex he))]
      rcases hD ex (List.mem_cons_self ex D) with rfl | rfl
      · simp
        ring
      · simp [hAB, Ne.symm hAB]

theorem sum_if_label_length (F : List String) (A B : String) (hAB : A ≠ B) :
    ∀ D : List (List String × String),
      (∀ ex ∈ D, ex = (F, A) ∨ ex = (F, B)) →
      (D.map (fun ex => if ex.2 = A then ex.1.length else 0)).sum
        = D.count (F, A) * F.length := by
  intro D
  induction D with
  | nil => intro _; simp
  | cons ex D ih =>
      intro hD
      rw [List.map_cons, List.sum_cons, List.count_cons,
        ih (fun e he => hD e (List.mem_cons_of_mem ex he))]
      rcases hD ex (List.mem_cons_self ex D) with rfl | rfl
      · simp
        ring
      · simp [hAB, Ne.symm hAB]

theorem length_eq_counts (F : List String) (A B : String) (hAB : A ≠ B) :
    ∀ D : List (List String × String),
      (∀ ex ∈ D, ex = (F, A) ∨ ex = (F, B)) →
      D.length = D.count (F, A) + D.count (F, B) := by
  intro D
  induction D with
  | nil => intro _; rfl
  | cons ex D ih =>
      intro hD
      rw [List.length_cons, List.count_cons, List.count_cons,
        ih (fun e he => hD e (List.mem_cons_of_mem ex he))]
      rcases hD ex (List.mem_cons_self ex D) with rfl | rfl
      · simp [hAB, Ne.symm hAB]
        omega
      · simp [hAB, Ne.symm hAB]
        omega

/-! ### Score lemmas: positivity and the log-probability form -/

theorem list_log_prod :
    ∀ l : List ℝ, (∀ x ∈ l, 0 < x) →
      Real.log l.prod = (l.map Real.log).sum := by
  intro l
  induction l with
  | nil => intro _; simp
  | cons x xs ih =>
      intro h
      have hx : 0 < x := h x (List.mem_cons_self x xs)
      have hxs : ∀ y ∈ xs, 0 < y := fun y hy => h y (List.mem_cons_of_mem x hy)
      have hprod : 0 < xs.prod := List.prod_pos hxs
      rw [List.prod_cons, Real.log_mul (ne_of_gt hx) (ne_of_gt hprod),
        List.map_cons, List.sum_cons, ih hxs]

/-- The real-valued per-feature factor of the score of `label` (the
argument of each `math.log` summand of the source's `predict`). -/
noncomputable def facR (m : Model) (label : String) (f : String) : ℝ :=
  ((m.featureCounts label f : ℝ) + 1)
    / ((m.classTokenCounts label : ℝ) + (m.vocab.card : ℝ))

theorem facR_pos (m : Model) (label f : String)
    (hden : (0:ℝ) < (m.classTokenCounts label : ℝ) + (m.vocab.card : ℝ)) :
    0 < facR m label f := by
  apply div_pos _ hden
  have : (0:ℝ) ≤ (m.featureCounts label f : ℝ) := Nat.cast_nonneg _
  linarith

theorem scoreQ_cast (m : Model) (F : List String) (label : String) :
    ((m.scoreQ F label : ℚ) : ℝ)
      = ((m.classCounts label : ℝ) / (m.totalExamples : ℝ))
        * (F.map (facR m label)).prod := by
  unfold Model.scoreQ
  push_cast
  congr 1
  rw [List.map_map]
  congr 1
  apply List.map_congr_left
  intro f _
  unfold facR
  simp only [Function.comp]
  push_cast
  rfl

theorem scoreQ_pos (m : Model) (F : List String) (label : String)
    (h1 : 0 < m.classCounts label) (h2 : 0 < m.totalExamples)
    (hden : F ≠ [] →
      (0:ℝ) < (m.classTokenCounts label : ℝ) + (m.vocab.card : ℝ)) :
    (0:ℝ) < ((m.scoreQ F label : ℚ) : ℝ) := by
  rw [scoreQ_cast]
  apply mul_pos
  · apply div_pos
    · exact_mod_cast h1
    · exact_mod_cast h2
  · apply List.prod_pos
    intro x hx
    rcases List.mem_map.mp hx with ⟨f, hf, rfl⟩
    apply facR_pos
    apply hden
    intro hnil
    rw [hnil] at hf
    cases hf

/-- The score that `predict` computes for `label`, written exactly as the
source's sum of `math.log`s, equals `Real.log` of the rational likelihood
`scoreQ`: the embedding's sort key induces the same order as the source's
log score. -/
theorem log_scoreQ (m : Model) (F : List String) (label : String)
    (h1 : 0 < m.classCounts label) (h2 : 0 < m.totalExamples)
    (hden : F ≠ [] →
      (0:ℝ) < (m.classTokenCounts label : ℝ) + (m.vocab.card : ℝ)) :
    Real.log ((m.scoreQ F label : ℚ) : ℝ)
      = Real.log ((m.classCounts label : ℝ) / (m.totalExamples : ℝ))
        + (F.map (fun f => Real.log (facR m label f))).sum := by
  rw [scoreQ_cast]
  have hprior : (0:ℝ) < (m.classCounts label : ℝ) / (m.totalExamples : ℝ) := by
    apply div_pos
    · exact_mod_cast h1
    · exact_mod_cast h2
  have hfac : ∀ x ∈ F.map (facR m label), 0 < x := by
    intro x hx
    rcases List.mem_map.mp hx with ⟨f, hf, rfl⟩
    apply facR_pos
    apply hden
    intro hnil
    rw [hnil] at hf
    cases hf
  rw [Real.log_mul (ne_of_gt hprior) (ne_of_gt (List.prod_pos hfac)),
    list_log_prod _ hfac, List.map_map]
  rfl

/-! ### The Naive Bayes monotonicity inequality (C4)

Core argument: with identical training features, the two class likelihoods
differ only in the training multiplicity; the per-token factor vectors of
both classes are mixtures of the empirical distribution and the uniform
one, the better-trained class lying closer to the empirical optimum.  The
quantitative form used here: the ratio sum `∑ m_t · q_t/p_t` is at most
`L` (a Cauchy–Schwarz-style pairing whose pairwise form reduces to
`(a−b)·(m_t−m_s)² ≥ 0`), and Gibbs' inequality via `log x ≤ x − 1` turns
that into `∑ log q ≤ ∑ log p`. -/

theorem pairIneq (a b x y : ℝ) (hb0 : 0 ≤ b) (hba : b ≤ a)
    (hx : 0 ≤ x) (hy : 0 ≤ y) :
    x * (b * x + 1) / (a * x + 1) * (a * y + 1)
      + y * (b * y + 1) / (a * y + 1) * (a * x + 1)
      ≤ y * (b * x + 1) + x * (b * y + 1) := by
  have ha0 : 0 ≤ a := le_trans hb0 hba
  have hdx : (0:ℝ) < a * x + 1 := by nlinarith
  have hdy : (0:ℝ) < a * y + 1 := by nlinarith
  rw [div_mul_eq_mul_div, div_mul_eq_mul_div,
    div_add_div _ _ (ne_of_gt hdx) (ne_of_gt hdy),
    div_le_iff₀ (mul_pos hdx hdy)]
  have key : (y * (b * x + 1) + x * (b * y + 1)) * ((a * x + 1) * (a * y + 1))
      - (x * (b * x + 1) * (a * y + 1) * (a * y + 1)
        + y * (b * y + 1) * (a * x + 1) * (a * x + 1))
      = (a - b) * (x - y) ^ 2 := by ring
  have hnn : 0 ≤ (a - b) * (x - y) ^ 2 :=
    mul_nonneg (sub_nonneg.mpr hba) (sq_nonneg (x - y))
  linarith

theorem keyIneq (T : Finset String) (mf : String → ℕ) (a b : ℕ)
    (hb : 1 ≤ b) (hba : b ≤ a) :
    (∑ t ∈ T, (mf t : ℝ) * (((b:ℝ) * mf t + 1) / ((a:ℝ) * mf t + 1)))
        * (∑ s ∈ T, ((a:ℝ) * mf s + 1))
      ≤ (∑ s ∈ T, (mf s : ℝ)) * (∑ t ∈ T, ((b:ℝ) * mf t + 1)) := by
  have hbR : (0:ℝ) ≤ (b:ℝ) := Nat.cast_nonneg b
  have hbaR : (b:ℝ) ≤ (a:ℝ) := Nat.cast_le.mpr hba
  rw [Finset.sum_mul_sum, Finset.sum_mul_sum]
  have pair : ∀ i ∈ T, ∀ j ∈ T,
      (mf i : ℝ) * (((b:ℝ) * mf i + 1) / ((a:ℝ) * mf i + 1)) * ((a:ℝ) * mf j + 1)
        + (mf j : ℝ) * (((b:ℝ) * mf j + 1) / ((a:ℝ) * mf j + 1)) * ((a:ℝ) * mf i + 1)
      ≤ (mf j : ℝ) * ((b:ℝ) * mf i + 1) + (mf i : ℝ) * ((b:ℝ) * mf j + 1) := by
    intro i _ j _
    have := pairIneq (a:ℝ) (b:ℝ) (mf i : ℝ) (mf j : ℝ) hbR hbaR
      (Nat.cast_nonneg _) (Nat.cast_nonneg _)
    calc (mf i : ℝ) * (((b:ℝ) * mf i + 1) / ((a:ℝ) * mf i + 1)) * ((a:ℝ) * mf j + 1)
          + (mf j : ℝ) * (((b:ℝ) * mf j + 1) / ((a:ℝ) * mf j + 1)) * ((a:ℝ) * mf i + 1)
        = (mf i : ℝ) * ((b:ℝ) * mf i + 1) / ((a:ℝ) * mf i + 1) * ((a:ℝ) * mf j + 1)
          + (mf j : ℝ) * ((b:ℝ) * mf j + 1) / ((a:ℝ) * mf j + 1) * ((a:ℝ) * mf i + 1) := by
          ring
      _ ≤ (mf j : ℝ) * ((b:ℝ) * mf i + 1) + (mf i : ℝ) * ((b:ℝ) * mf j + 1) := this
  have hswapL :
      (∑ i ∈ T, ∑ j ∈ T,
        (mf i : ℝ) * (((b:ℝ) * mf i + 1) / ((a:ℝ) * mf i + 1)) * ((a:ℝ) * mf j + 1))
      = ∑ i ∈ T, ∑ j ∈ T,
        (mf j : ℝ) * (((b:ℝ) * mf j + 1) / ((a:ℝ) * mf j + 1)) * ((a:ℝ) * mf i + 1) :=
    Finset.sum_comm
  have hswapR :
      (∑ i ∈ T, ∑ j ∈ T, (mf i : ℝ) * ((b:ℝ) * mf j + 1))
      = ∑ i ∈ T, ∑ j ∈ T, (mf j : ℝ) * ((b:ℝ) * mf i + 1) :=
    Finset.sum_comm
  have hdouble :
      (∑ i ∈ T, ∑ j ∈ T,
          ((mf i : ℝ) * (((b:ℝ) * mf i + 1) / ((a:ℝ) * mf i + 1)) * ((a:ℝ) * mf j + 1)
            + (mf j : ℝ) * (((b:ℝ) * mf j + 1) / ((a:ℝ) * mf j + 1)) * ((a:ℝ) * mf i + 1)))
      ≤ ∑ i ∈ T, ∑ j ∈ T,
          ((mf j : ℝ) * ((b:ℝ) * mf i + 1) + (mf i : ℝ) * ((b:ℝ) * mf j + 1)) := by
    apply Finset.sum_le_sum
    intro i hi
    apply Finset.sum_le_sum
    intro j hj
    exact pair i hi j hj
  simp only [Finset.sum_add_distrib] at hdouble
  rw [← hswapL] at hdouble
  rw [show (∑ i ∈ T, ∑ j ∈ T, (mf j : ℝ) * ((b:ℝ) * mf i + 1))
      = ∑ i ∈ T, ∑ j ∈ T, (mf i : ℝ) * ((b:ℝ) * mf j + 1) from hswapR.symm]
    at hdouble
  linarith

theorem list_sum_map_sub {α : Type} (l : List α) (f g : α → ℝ) :
    (l.map (fun x => f x - g x)).sum = (l.map f).sum - (l.map g).sum := by
  induction l with
  | nil => simp
  | cons x xs ih =>
      simp only [List.map_cons, List.sum_cons, ih]
      ring

theorem list_sum_map_one {α : Type} (l : List α) :
    (l.map (fun _ => (1:ℝ))).sum = l.length := by
  induction l with
  | nil => simp
  | cons x xs ih => simp [ih]; ring

/-- Gibbs' inequality through `log x ≤ x − 1`: a ratio sum bounded by the
length forces the log sums into order. -/
theorem gibbs_step (F : List String) (qq pp : String → ℝ)
    (hqq : ∀ f ∈ F, 0 < qq f) (hpp : ∀ f ∈ F, 0 < pp f)
    (hsum : (F.map (fun f => qq f / pp f)).sum ≤ (F.length : ℝ)) :
    (F.map (fun f => Real.log (qq f))).sum
      ≤ (F.map (fun f => Real.log (pp f))).sum := by
  have hpoint : ∀ f ∈ F,
      Real.log (qq f) - Real.log (pp f) ≤ qq f / pp f - 1 := by
    intro f hf
    rw [← Real.log_div (ne_of_gt (hqq f hf)) (ne_of_gt (hpp f hf))]
    exact Real.log_le_sub_one_of_pos (div_pos (hqq f hf) (hpp f hf))
  have h1 : (F.map (fun f => Real.log (qq f) - Real.log (pp f))).sum
      ≤ (F.map (fun f => qq f / pp f - 1)).sum :=
    List.sum_le_sum hpoint
  rw [list_sum_map_sub F (fun f => Real.log (qq f)) (fun f => Real.log (pp f)),
    list_sum_map_sub F (fun f => qq f / pp f) (fun _ => (1:ℝ)),
    list_sum_map_one] at h1
  linarith

theorem ratio_sum_le (F : List String) (a b : ℕ) (hb : 1 ≤ b) (hba : b ≤ a)
    (hF : F ≠ []) :
    (F.map (fun f =>
        (((b:ℝ) * F.count f + 1) / ((b:ℝ) * F.length + F.toFinset.card))
          / (((a:ℝ) * F.count f + 1) / ((a:ℝ) * F.length + F.toFinset.card)))).sum
      ≤ (F.length : ℝ) := by
  have haN : 1 ≤ a := le_trans hb hba
  have hL1 : (1:ℝ) ≤ (F.length : ℝ) := by exact_mod_cast List.length_pos.mpr hF
  have hV1 : (1:ℝ) ≤ (F.toFinset.card : ℝ) := by
    have hne : F.toFinset.Nonempty := by
      cases F with
      | nil => exact absurd rfl hF
      | cons x xs => exact ⟨x, by simp⟩
    exact_mod_cast Finset.card_pos.mpr hne
  have haR : (1:ℝ) ≤ (a:ℝ) := by exact_mod_cast haN
  have hbR : (1:ℝ) ≤ (b:ℝ) := by exact_mod_cast hb
  have hbL : (0:ℝ) < (b:ℝ) * F.length + F.toFinset.card := by nlinarith
  have haL : (0:ℝ) < (a:ℝ) * F.length + F.toFinset.card := by nlinarith
  have hpnum : ∀ t : String, (0:ℝ) < (a:ℝ) * F.count t + 1 := by
    intro t
    have h0 : (0:ℝ) ≤ (a:ℝ) * F.count t :=
      mul_nonneg (by linarith) (Nat.cast_nonneg _)
    linarith
  rw [Finset.sum_list_map_count]
  simp only [nsmul_eq_mul]
  have hratio : ∀ t ∈ F.toFinset,
      (F.count t : ℝ) * ((((b:ℝ) * F.count t + 1) / ((b:ℝ) * F.length + F.toFinset.card))
          / (((a:ℝ) * F.count t + 1) / ((a:ℝ) * F.length + F.toFinset.card)))
        = (F.count t : ℝ) * (((b:ℝ) * F.count t + 1) / ((a:ℝ) * F.count t + 1))
            * (((a:ℝ) * F.length + F.toFinset.card)
                / ((b:ℝ) * F.length + F.toFinset.card)) := by
    intro t _
    field_simp
    ring
  rw [Finset.sum_congr rfl hratio, ← Finset.sum_mul, ← mul_div_assoc,
    div_le_iff₀ hbL]
  have hsum1 : (∑ s ∈ F.toFinset, (F.count s : ℝ)) = (F.length : ℝ) := by
    rw [← Nat.cast_sum, List.sum_toFinset_count_eq_length]
  have hsum2 : (∑ s ∈ F.toFinset, ((a:ℝ) * F.count s + 1))
      = (a:ℝ) * F.length + F.toFinset.card := by
    rw [Finset.sum_add_distrib, ← Finset.mul_sum, hsum1, Finset.sum_const,
      nsmul_eq_mul, mul_one]
  have hsum3 : (∑ t ∈ F.toFinset, ((b:ℝ) * F.count t + 1))
      = (b:ℝ) * F.length + F.toFinset.card := by
    rw [Finset.sum_add_distrib, ← Finset.mul_sum, hsum1, Finset.sum_const,
      nsmul_eq_mul, mul_one]
  have hk := keyIneq F.toFinset F.count a b hb hba
  rw [hsum1, hsum2, hsum3] at hk
  exact hk

theorem sumLog_le (F : List String) (a b : ℕ) (hb : 1 ≤ b) (hba : b ≤ a)
    (hF : F ≠ []) :
    (F.map (fun f =>
        Real.log (((b:ℝ) * F.count f + 1) / ((b:ℝ) * F.length + F.toFinset.card)))).sum
      ≤ (F.map (fun f =>
        Real.log (((a:ℝ) * F.count f + 1) / ((a:ℝ) * F.length + F.toFinset.card)))).sum := by
  have haN : 1 ≤ a := le_trans hb hba
  have hL1 : (1:ℝ) ≤ (F.length : ℝ) := by exact_mod_cast List.length_pos.mpr hF
  have hV1 : (1:ℝ) ≤ (F.toFinset.card : ℝ) := by
    have hne : F.toFinset.Nonempty := by
      cases F with
      | nil => exact absurd rfl hF
      | cons x xs => exact ⟨x, by simp⟩
    exact_mod_cast Finset.card_pos.mpr hne
  have haR : (1:ℝ) ≤ (a:ℝ) := by exact_mod_cast haN
  have hbR : (1:ℝ) ≤ (b:ℝ) := by exact_mod_cast hb
  have hbL : (0:ℝ) < (b:ℝ) * F.length + F.toFinset.card := by nlinarith
  have haL : (0:ℝ) < (a:ℝ) * F.length + F.toFinset.card := by nlinarith
  apply gibbs_step
  · intro f _
    apply div_pos _ hbL
    have h0 : (0:ℝ) ≤ (b:ℝ) * F.count f :=
      mul_nonneg (by linarith) (Nat.cast_nonneg _)
    linarith
  · intro f _
    apply div_pos _ haL
    have h0 : (0:ℝ) ≤ (a:ℝ) * F.count f :=
      mul_nonneg (by linarith) (Nat.cast_nonneg _)
    linarith
  · exact ratio_sum_le F a b hb hba hF

/-- The core comparison: with `b < a` training repetitions of the same
example for the two labels, the full (prior × likelihood) score of the
better-trained label is strictly larger. -/
theorem nb_coreR (F : List String) (a b : ℕ) (hb : 1 ≤ b) (hab : b < a) :
    (b:ℝ) / ((a:ℝ) + (b:ℝ))
        * (F.map (fun f =>
            ((b:ℝ) * F.count f + 1) / ((b:ℝ) * F.length + F.toFinset.card))).prod
      < (a:ℝ) / ((a:ℝ) + (b:ℝ))
        * (F.map (fun f =>
            ((a:ℝ) * F.count f + 1) / ((a:ℝ) * F.length + F.toFinset.card))).prod := by
  have haN : 1 ≤ a := le_trans hb (le_of_lt hab)
  have haR : (1:ℝ) ≤ (a:ℝ) := by exact_mod_cast haN
  have hbR : (1:ℝ) ≤ (b:ℝ) := by exact_mod_cast hb
  have habR : (b:ℝ) < (a:ℝ) := by exact_mod_cast hab
  have hab0 : (0:ℝ) < (a:ℝ) + (b:ℝ) := by linarith
  by_cases hF : F = []
  · subst hF
    simp only [List.map_nil, List.prod_nil, mul_one]
    exact (div_lt_div_iff_of_pos_right hab0).mpr habR
  · have hL1 : (1:ℝ) ≤ (F.length : ℝ) := by exact_mod_cast List.length_pos.mpr hF
    have hV1 : (1:ℝ) ≤ (F.toFinset.card : ℝ) := by
      have hne : F.toFinset.Nonempty := by
        cases F with
        | nil => exact absurd rfl hF
        | cons x xs => exact ⟨x, by simp⟩
      exact_mod_cast Finset.card_pos.mpr hne
    have hbL : (0:ℝ) < (b:ℝ) * F.length + F.toFinset.card := by nlinarith
    have haL : (0:ℝ) < (a:ℝ) * F.length + F.toFinset.card := by nlinarith
    have hfacB : ∀ x ∈ F.map (fun f =>
        ((b:ℝ) * F.count f + 1) / ((b:ℝ) * F.length + F.toFinset.card)), 0 < x := by
      intro x hx
      rcases List.mem_map.mp hx with ⟨f, _, rfl⟩
      apply div_pos _ hbL
      have h0 : (0:ℝ) ≤ (b:ℝ) * F.count f :=
        mul_nonneg (by linarith) (Nat.cast_nonneg _)
      linarith
    have hfacA : ∀ x ∈ F.map (fun f =>
        ((a:ℝ) * F.count f + 1) / ((a:ℝ) * F.length + F.toFinset.card)), 0 < x := by
      intro x hx
      rcases List.mem_map.mp hx with ⟨f, _, rfl⟩
      apply div_pos _ haL
      have h0 : (0:ℝ) ≤ (a:ℝ) * F.count f :=
        mul_nonneg (by linarith) (Nat.cast_nonneg _)
      linarith
    have hprodB : 0 < (F.map (fun f =>
        ((b:ℝ) * F.count f + 1) / ((b:ℝ) * F.length + F.toFinset.card))).prod :=
      List.prod_pos hfacB
    have hprodA : 0 < (F.map (fun f =>
        ((a:ℝ) * F.count f + 1) / ((a:ℝ) * F.length + F.toFinset.card))).prod :=
      List.prod_pos hfacA
    have hpriorB : (0:ℝ) < (b:ℝ) / ((a:ℝ) + (b:ℝ)) := div_pos (by linarith) hab0
    have hpriorA : (0:ℝ) < (a:ℝ) / ((a:ℝ) + (b:ℝ)) := div_pos (by linarith) hab0
    have hQB : (0:ℝ) < (b:ℝ) / ((a:ℝ) + (b:ℝ))
        * (F.map (fun f =>
            ((b:ℝ) * F.count f + 1) / ((b:ℝ) * F.length + F.toFinset.card))).prod :=
      mul_pos hpriorB hprodB
    have hQA : (0:ℝ) < (a:ℝ) / ((a:ℝ) + (b:ℝ))
        * (F.map (fun f =>
            ((a:ℝ) * F.count f + 1) / ((a:ℝ) * F.length + F.toFinset.card))).prod :=
      mul_pos hpriorA hprodA
    rw [← Real.log_lt_log_iff hQB hQA,
      Real.log_mul (ne_of_gt hpriorB) (ne_of_gt hprodB),
      Real.log_mul (ne_of_gt hpriorA) (ne_of_gt hprodA),
      Real.log_div (by linarith) (ne_of_gt hab0),
      Real.log_div (by linarith) (ne_of_gt hab0),
      list_log_prod _ hfacB, list_log_prod _ hfacA, List.map_map, List.map_map]
    have hsums := sumLog_le F a b hb (le_of_lt hab) hF
    have hlogs : Real.log (b:ℝ) < Real.log (a:ℝ) :=
      Real.log_lt_log (by linarith) habR
    have hcompB : (F.map (Real.log ∘ fun f =>
        ((b:ℝ) * F.count f + 1) / ((b:ℝ) * F.length + F.toFinset.card))).sum
        = (F.map (fun f => Real.log
            (((b:ℝ) * F.count f + 1) / ((b:ℝ) * F.length + F.toFinset.card)))).sum := rfl
    have hcompA : (F.map (Real.log ∘ fun f =>
        ((a:ℝ) * F.count f + 1) / ((a:ℝ) * F.length + F.toFinset.card))).sum
        = (F.map (fun f => Real.log
            (((a:ℝ) * F.count f + 1) / ((a:ℝ) * F.length + F.toFinset.card)))).sum := rfl
    rw [hcompB, hcompA]
    linarith

/-! ### Ranking lemmas for `predict` -/

theorem predict_pairwise (m : Model) (F : List String) :
    (m.predict F).Pairwise fun p q => q.2 ≤ p.2 := by
  have htrans : ∀ x y z : String × ℚ,
      (fun p q : String × ℚ => decide (q.2 ≤ p.2)) x y = true →
      (fun p q : String × ℚ => decide (q.2 ≤ p.2)) y z = true →
      (fun p q : String × ℚ => decide (q.2 ≤ p.2)) x z = true := by
    intro x y z hxy hyz
    simp only [decide_eq_true_eq] at hxy hyz ⊢
    exact le_trans hyz hxy
  have htotal : ∀ x y : String × ℚ,
      ((fun p q : String × ℚ => decide (q.2 ≤ p.2)) x y
        || (fun p q : String × ℚ => decide (q.2 ≤ p.2)) y x) = true := by
    intro x y
    simp only [Bool.or_eq_true, decide_eq_true_eq]
    exact le_total y.2 x.2
  have h := @List.sorted_mergeSort (String × ℚ)
    (fun p q => decide (q.2 ≤ p.2)) htrans htotal
    (m.labels.map fun l => (l, m.scoreQ F l))
  exact h.imp (by intro hab; simpa using hab)

theorem mem_predict (m : Model) (F : List String) (l : String)
    (h : l ∈ m.labels) : (l, m.scoreQ F l) ∈ m.predict F := by
  apply (List.mergeSort_perm (m.labels.map fun l' => (l', m.scoreQ F l'))
    (fun p q => decide (q.2 ≤ p.2))).mem_iff.mpr
  exact List.mem_map.mpr ⟨l, h, rfl⟩

/-- `A` appears strictly before `B` in the ranked output list. -/
def rankedAbove (xs : List (String × ℚ)) (A B : String) : Prop :=
  ∃ i j, ∃ hi : i < xs.length, ∃ hj : j < xs.length,
    i < j ∧ (xs.get ⟨i, hi⟩).1 = A ∧ (xs.get ⟨j, hj⟩).1 = B

theorem rankedAbove_of_mem (xs : List (String × ℚ))
    (hpair : xs.Pairwise fun p q => q.2 ≤ p.2) (A B : String) (sa sb : ℚ)
    (ha : (A, sa) ∈ xs) (hb : (B, sb) ∈ xs) (hlt : sb < sa) :
    rankedAbove xs A B := by
  rcases List.mem_iff_get.mp ha with ⟨⟨i, hi⟩, hgi⟩
  rcases List.mem_iff_get.mp hb with ⟨⟨j, hj⟩, hgj⟩
  have hij : i ≠ j := by
    intro hecontra
    subst hecontra
    rw [hgi] at hgj
    have : sa = sb := congrArg Prod.snd hgj
    exact absurd this (ne_of_gt hlt)
  rcases Nat.lt_or_ge i j with hij' | hge
  · exact ⟨i, j, hi, hj, hij', by rw [hgi], by rw [hgj]⟩
  · have hji : j < i := lt_of_le_of_ne hge (Ne.symm hij)
    have hle := (List.pairwise_iff_get.mp hpair) ⟨j, hj⟩ ⟨i, hi⟩ hji
    rw [hgi, hgj] at hle
    exact absurd hle (not_le.mpr hlt)

/-- **C4.** For every feature list `F` and every training history that
consists only of `train(F, A)` and `train(F, B)` calls, in any order, with
`train(F, A)` called strictly more often than `train(F, B)` (and the
latter at least once — with zero `B` examples `B` is not in
`class_counts` and is not ranked at all): `predict(F)` ranks `A` strictly
above `B`. -/
theorem classifier_monotonicity (F : List String) (A B : String) (hAB : A ≠ B)
    (D : List (List String × String))
    (hD : ∀ ex ∈ D, ex = (F, A) ∨ ex = (F, B))
    (hb : 1 ≤ D.count (F, B)) (hab : D.count (F, B) < D.count (F, A)) :
    rankedAbove ((trainAll D).predict F) A B := by
  have hBA : B ≠ A := Ne.symm hAB
  have hD' : ∀ ex ∈ D, ex = (F, B) ∨ ex = (F, A) := fun ex he => (hD ex he).symm
  have hDne : D ≠ [] := by
    intro hnil
    rw [hnil] at hb
    cases hb
  have hexF : ∀ ex ∈ D, ex.1 = F := by
    intro ex he
    rcases hD ex he with rfl | rfl <;> rfl
  have hmemDA : (F, A) ∈ D := by
    have : 0 < D.count (F, A) := lt_of_le_of_lt (Nat.zero_le _) hab
    exact List.count_pos_iff_mem.mp this
  have hmemDB : (F, B) ∈ D := by
    have : 0 < D.count (F, B) := hb
    exact List.count_pos_iff_mem.mp this
  have hccA : (trainAll D).classCounts A = D.count (F, A) := by
    unfold trainAll
    rw [foldTrain_classCounts, countP_label_eq_count F A B hAB D hD]
    show 0 + D.count (F, A) = D.count (F, A)
    omega
  have hccB : (trainAll D).classCounts B = D.count (F, B) := by
    unfold trainAll
    rw [foldTrain_classCounts, countP_label_eq_count F B A hBA D hD']
    show 0 + D.count (F, B) = D.count (F, B)
    omega
  have htot : (trainAll D).totalExamples = D.count (F, A) + D.count (F, B) := by
    unfold trainAll
    rw [foldTrain_total, ← length_eq_counts F A B hAB D hD]
    show 0 + D.length = D.length
    omega
  have hfcA : ∀ f, (trainAll D).featureCounts A f = D.count (F, A) * F.count f := by
    intro f
    unfold trainAll
    rw [foldTrain_featureCounts, sum_if_label_count F A B f hAB D hD]
    show 0 + D.count (F, A) * F.count f = D.count (F, A) * F.count f
    omega
  have hfcB : ∀ f, (trainAll D).featureCounts B f = D.count (F, B) * F.count f := by
    intro f
    unfold trainAll
    rw [foldTrain_featureCounts, sum_if_label_count F B A f hBA D hD']
    show 0 + D.count (F, B) * F.count f = D.count (F, B) * F.count f
    omega
  have htcA : (trainAll D).classTokenCounts A = D.count (F, A) * F.length := by
    unfold trainAll
    rw [foldTrain_tokenCounts, sum_if_label_length F A B hAB D hD]
    show 0 + D.count (F, A) * F.length = D.count (F, A) * F.length
    omega
  have htcB : (trainAll D).classTokenCounts B = D.count (F, B) * F.length := by
    unfold trainAll
    rw [foldTrain_tokenCounts, sum_if_label_length F B A hBA D hD']
    show 0 + D.count (F, B) * F.length = D.count (F, B) * F.length
    omega
  have hvoc : (trainAll D).vocab = F.toFinset := by
    unfold trainAll
    rw [foldTrain_vocab_const F D Model.init hexF hDne]
    exact Finset.empty_union _
  have hsA : (((trainAll D).scoreQ F A : ℚ) : ℝ)
      = (D.count (F, A) : ℝ) / ((D.count (F, A) : ℝ) + (D.count (F, B) : ℝ))
        * (F.map (fun f =>
            ((D.count (F, A) : ℝ) * F.count f + 1)
              / ((D.count (F, A) : ℝ) * F.length + F.toFinset.card))).prod := by
    rw [scoreQ_cast]
    congr 1
    · rw [hccA, htot]
      push_cast
      rfl
    · congr 1
      apply List.map_congr_left
      intro f _
      unfold facR
      rw [hfcA f, htcA, hvoc]
      push_cast
      rfl
  have hsB : (((trainAll D).scoreQ F B : ℚ) : ℝ)
      = (D.count (F, B) : ℝ) / ((D.count (F, A) : ℝ) + (D.count (F, B) : ℝ))
        * (F.map (fun f =>
            ((D.count (F, B) : ℝ) * F.count f + 1)
              / ((D.count (F, B) : ℝ) * F.length + F.toFinset.card))).prod := by
    rw [scoreQ_cast]
    congr 1
    · rw [hccB, htot]
      push_cast
      rfl
    · congr 1
      apply List.map_congr_left
      intro f _
      unfold facR
      rw [hfcB f, htcB, hvoc]
      push_cast
      rfl
  have hlt : (trainAll D).scoreQ F B < (trainAll D).scoreQ F A := by
    have hcore := nb_coreR F (D.count (F, A)) (D.count (F, B)) hb hab
    rw [← hsA, ← hsB] at hcore
    exact_mod_cast hcore
  have hmemA : (A, (trainAll D).scoreQ F A) ∈ (trainAll D).predict F := by
    apply mem_predict
    show A ∈ (trainAll D).labels
    unfold trainAll
    rw [foldTrain_mem_labels]
    exact Or.inr ⟨(F, A), hmemDA, rfl⟩
  have hmemB : (B, (trainAll D).scoreQ F B) ∈ (trainAll D).predict F := by
    apply mem_predict
    show B ∈ (trainAll D).labels
    unfold trainAll
    rw [foldTrain_mem_labels]
    exact Or.inr ⟨(F, B), hmemDB, rfl⟩
  exact rankedAbove_of_mem _ (predict_pairwise (trainAll D) F) A B _ _
    hmemA hmemB hlt

/-- Witness for C4: interleaved calls `train(["x"],"A")`,
`train(["x"],"B")`, `train(["x"],"A")` — two `A` examples, one `B`. -/
theorem classifier_monotonicity_witness :
    rankedAbove
      ((trainAll [(["x"], "A"), (["x"], "B"), (["x"], "A")]).predict ["x"])
      "A" "B" :=
  classifier_monotonicity ["x"] "A" "B" (by decide)
    [(["x"], "A"), (["x"], "B"), (["x"], "A")] (by decide) (by decide) (by decide)

/-! ### C5: the returned scores are sorted log-probabilities -/

/-- Count-table sanity every `train`-built model satisfies. -/
def ModelWF (m : Model) : Prop :=
  (∀ l ∈ m.labels, 1 ≤ m.classCounts l)
  ∧ (∀ l, m.classCounts l ≤ m.totalExamples)
  ∧ (∀ l f, m.featureCounts l f ≤ m.classTokenCounts l)

theorem modelWF_init : ModelWF Model.init := by
  refine ⟨?_, ?_, ?_⟩
  · intro l hl
    cases hl
  · intro l
    exact le_refl 0
  · intro l f
    exact le_refl 0

theorem modelWF_train (m : Model) (F : List String) (l0 : String)
    (h : ModelWF m) : ModelWF (m.train F l0) := by
  obtain ⟨h1, h2, h3⟩ := h
  refine ⟨?_, ?_, ?_⟩
  · intro l hl
    rw [train_classCounts]
    by_cases hll : l = l0
    · rw [if_pos hll]
      omega
    · rw [if_neg hll]
      have hml : l ∈ m.labels := by
        rw [train_labels] at hl
        revert hl
        split
        · intro hl
          exact hl
        · intro hl
          rcases List.mem_append.mp hl with h' | h'
          · exact h'
          · exact absurd (List.mem_singleton.mp h') hll
      have := h1 l hml
      omega
  · intro l
    rw [train_classCounts, train_total]
    have := h2 l
    split <;> omega
  · intro l f
    rw [train_featureCounts, train_tokenCounts]
    have := h3 l f
    have hcl : F.count f ≤ F.length := List.count_le_length f F
    split <;> omega

theorem modelWF_trainAll (D : List (List String × String)) :
    ModelWF (trainAll D) := by
  have key : ∀ (D' : List (List String × String)) (m : Model), ModelWF m →
      ModelWF (D'.foldl (fun m' ex => m'.train ex.1 ex.2) m) := by
    intro D'
    induction D' with
    | nil => intro m h; exact h
    | cons ex D' ih =>
        intro m h
        rw [List.foldl_cons]
        exact ih _ (modelWF_train m ex.1 ex.2 h)
  exact key D Model.init modelWF_init

theorem list_prod_le_one :
    ∀ l : List ℝ, (∀ x ∈ l, 0 ≤ x ∧ x ≤ 1) → l.prod ≤ 1 := by
  intro l
  induction l with
  | nil => intro _; simp
  | cons x xs ih =>
      intro h
      rw [List.prod_cons]
      have hx := h x (List.mem_cons_self x xs)
      have hxs : ∀ y ∈ xs, 0 ≤ y ∧ y ≤ 1 :=
        fun y hy => h y (List.mem_cons_of_mem x hy)
      have h0 : 0 ≤ xs.prod := List.prod_nonneg fun y hy => (hxs y hy).1
      exact mul_le_one₀ hx.2 h0 (ih hxs)

theorem scoreQ_le_one (m : Model) (F : List String) (label : String)
    (hcc : m.classCounts label ≤ m.totalExamples) (htot : 0 < m.totalExamples)
    (hfc : ∀ f, m.featureCounts label f ≤ m.classTokenCounts label)
    (hcard : F ≠ [] → 1 ≤ m.vocab.card) :
    ((m.scoreQ F label : ℚ) : ℝ) ≤ 1 := by
  rw [scoreQ_cast]
  have htotR : (0:ℝ) < (m.totalExamples : ℝ) := by exact_mod_cast htot
  apply mul_le_one₀
  · exact (div_le_one htotR).mpr (by exact_mod_cast hcc)
  · apply List.prod_nonneg
    intro x hx
    rcases List.mem_map.mp hx with ⟨f, _, rfl⟩
    unfold facR
    apply div_nonneg
    · have : (0:ℝ) ≤ (m.featureCounts label f : ℝ) := Nat.cast_nonneg _
      linarith
    · have h0 : (0:ℝ) ≤ (m.classTokenCounts label : ℝ) := Nat.cast_nonneg _
      have h1 : (0:ℝ) ≤ (m.vocab.card : ℝ) := Nat.cast_nonneg _
      linarith
  · apply list_prod_le_one
    intro x hx
    rcases List.mem_map.mp hx with ⟨f, hf, rfl⟩
    have hFne : F ≠ [] := by
      intro hnil
      rw [hnil] at hf
      cases hf
    have hc1 : (1:ℝ) ≤ (m.vocab.card : ℝ) := by exact_mod_cast hcard hFne
    have htc : (0:ℝ) ≤ (m.classTokenCounts label : ℝ) := Nat.cast_nonneg _
    have hden : (0:ℝ) < (m.classTokenCounts label : ℝ) + (m.vocab.card : ℝ) := by
      linarith
    constructor
    · unfold facR
      apply div_nonneg _ (le_of_lt hden)
      have : (0:ℝ) ≤ (m.featureCounts label f : ℝ) := Nat.cast_nonneg _
      linarith
    · unfold facR
      rw [div_le_one hden]
      have := hfc f
      have hfcR : (m.featureCounts label f : ℝ) ≤ (m.classTokenCounts label : ℝ) := by
        exact_mod_cast this
      linarith

/-- **C5.** For a model produced only by `train` calls (and a feature list
that does not hit the degenerate zero-denominator crash, i.e. the vocab is
non-empty or the feature list is empty): the log of every score returned
by `predict` equals `log P(label) + Σ_f log((count(f,label)+1) /
(total_tokens(label)+|vocab|))`, the returned list is sorted by descending
(log-)score, and every returned log-score is ≤ 0. -/
theorem predict_scores_spec (D : List (List String × String)) (F : List String)
    (hV : F = [] ∨ (trainAll D).vocab.Nonempty) :
    (∀ p ∈ (trainAll D).predict F,
      Real.log (p.2 : ℝ)
        = Real.log (((trainAll D).classCounts p.1 : ℝ)
              / ((trainAll D).totalExamples : ℝ))
          + (F.map (fun f =>
              Real.log ((((trainAll D).featureCounts p.1 f : ℝ) + 1)
                / (((trainAll D).classTokenCounts p.1 : ℝ)
                    + ((trainAll D).vocab.card : ℝ))))).sum
      ∧ Real.log (p.2 : ℝ) ≤ 0)
    ∧ ((trainAll D).predict F).Pairwise
        (fun p q => Real.log (q.2 : ℝ) ≤ Real.log (p.2 : ℝ)) := by
  obtain ⟨h1, h2, h3⟩ := modelWF_trainAll D
  have hmem : ∀ p ∈ (trainAll D).predict F,
      p.1 ∈ (trainAll D).labels ∧ p.2 = (trainAll D).scoreQ F p.1 := by
    intro p hp
    have hp' := (List.mergeSort_perm
      ((trainAll D).labels.map fun l => (l, (trainAll D).scoreQ F l))
      (fun p' q' => decide (q'.2 ≤ p'.2))).mem_iff.mp hp
    rcases List.mem_map.mp hp' with ⟨l, hl, hpl⟩
    rw [← hpl]
    exact ⟨hl, rfl⟩
  have hden : ∀ l : String, F ≠ [] →
      (0:ℝ) < ((trainAll D).classTokenCounts l : ℝ)
        + ((trainAll D).vocab.card : ℝ) := by
    intro l hF
    rcases hV with hV | hV
    · exact absurd hV hF
    · have hcard : 0 < (trainAll D).vocab.card := Finset.card_pos.mpr hV
      have hc1 : (1:ℝ) ≤ ((trainAll D).vocab.card : ℝ) := by exact_mod_cast hcard
      have htc : (0:ℝ) ≤ ((trainAll D).classTokenCounts l : ℝ) := Nat.cast_nonneg _
      linarith
  have hcard1 : F ≠ [] → 1 ≤ (trainAll D).vocab.card := by
    intro hF
    rcases hV with hV | hV
    · exact absurd hV hF
    · exact Finset.card_pos.mpr hV
  constructor
  · intro p hp
    obtain ⟨hlab, hp2⟩ := hmem p hp
    have hcc : 0 < (trainAll D).classCounts p.1 := h1 p.1 hlab
    have htot : 0 < (trainAll D).totalExamples := lt_of_lt_of_le hcc (h2 p.1)
    constructor
    · rw [hp2]
      exact log_scoreQ (trainAll D) F p.1 hcc htot (hden p.1)
    · rw [hp2]
      apply Real.log_nonpos
      · exact le_of_lt (scoreQ_pos (trainAll D) F p.1 hcc htot (hden p.1))
      · exact scoreQ_le_one (trainAll D) F p.1 (h2 p.1) htot
          (fun f => h3 p.1 f) hcard1
  · apply List.Pairwise.imp_of_mem ?_ (predict_pairwise (trainAll D) F)
    intro p q hp hq hle
    obtain ⟨hlabq, hq2⟩ := hmem q hq
    have hccq : 0 < (trainAll D).classCounts q.1 := h1 q.1 hlabq
    have htotq : 0 < (trainAll D).totalExamples := lt_of_lt_of_le hccq (h2 q.1)
    have hqpos : (0:ℝ) < (q.2 : ℝ) := by
      rw [hq2]
      exact scoreQ_pos (trainAll D) F q.1 hccq htotq (hden q.1)
    exact Real.log_le_log hqpos (by exact_mod_cast hle)

/-- Witness for C5: one training example, one feature. -/
theorem predict_scores_spec_witness :
    ((trainAll [(["x"], "L")]).predict ["x"]).Pairwise
        (fun p q => Real.log (q.2 : ℝ) ≤ Real.log (p.2 : ℝ)) :=
  (predict_scores_spec [(["x"], "L")] ["x"] (Or.inr ⟨"x", by decide⟩)).2

end PytronKit
